import Mathlib

/- Shallow embedding of src/rss2discord.py (the PiMO RSS-to-Discord relay).

   Pure Python functions become Lean functions. Python stdlib calls whose
   results depend on the environment (sha1 digests, datetime parsing,
   float parsing) are passed in as function parameters. I/O outcomes
   (HTTP responses, XML parse outcomes, thread completion times) are
   explicit inputs. Durations are rationals, sets are Finsets, dicts are
   association lists. -/

namespace Rss2Discord

/-- Python string comparison, lexicographic by code point: `a <= b` on `str`. -/
def charLexLe : List Char → List Char → Bool
  | [], _ => true
  | _ :: _, [] => false
  | a :: as, b :: bs =>
    if a.toNat < b.toNat then true
    else if b.toNat < a.toNat then false
    else charLexLe as bs

/-- Python truthiness of an optional string: `None` and `""` are falsy. -/
def pyTruthy : Option String → Bool
  | none => false
  | some s => s ≠ ""

/-- Python `a or b` on optional strings, as in `d.get(x) or d.get(y)`. -/
def pyOr (a b : Option String) : Option String := if pyTruthy a then a else b

/-- Python `a or b` where `a` is an optional string and `b` a string. -/
def pyOrS (a : Option String) (b : String) : String :=
  match a with
  | some s => if s = "" then b else s
  | none => b

/-- Python `a or b` on two strings (`""` is falsy). -/
def pyOrSS (a b : String) : String := if a = "" then b else a

/-- Python `xs or ys` on two lists (`[]` is falsy). -/
def pyOrL {α : Type} (xs ys : List α) : List α := if xs.isEmpty then ys else xs

/-- `dict.get` on a string-keyed mapping modelled as an association list. -/
def hget (hs : List (String × String)) (k : String) : Option String :=
  (hs.find? (fun p => p.1 == k)).map Prod.snd

/-- Python whitespace characters recognised by `str.strip()`. -/
def isPyWs (c : Char) : Bool :=
  c == ' ' || c == '\t' || c == '\n' || c == '\r' || c.toNat == 11 || c.toNat == 12

/-- Strip characters satisfying `p` from both ends of a character list. -/
def stripChars (p : Char → Bool) (l : List Char) : List Char :=
  ((l.dropWhile p).reverse.dropWhile p).reverse

/-- Python `str.strip()`. -/
def pstrip (s : String) : String := ⟨stripChars isPyWs s.data⟩

/-- `listStarts pre l`: `l` starts with `pre` (Python `str.startswith`). -/
def listStarts : List Char → List Char → Bool
  | [], _ => true
  | _ :: _, [] => false
  | a :: as, b :: bs => a == b && listStarts as bs

/-- `listEnds suf l`: `l` ends with `suf` (Python `str.endswith`). -/
def listEnds (suf l : List Char) : Bool := listStarts suf.reverse l.reverse

/-- `listHasSub pat l`: `pat` occurs as a contiguous substring of `l`
    (Python `pat in l`). -/
def listHasSub (pat : List Char) : List Char → Bool
  | [] => pat.isEmpty
  | c :: rest => listStarts pat (c :: rest) || listHasSub pat rest

/-- `FeedItem` dataclass (src/rss2discord.py, line 264). -/
structure FeedItem where
  feed_url : String
  unique_id : String
  title : String
  link : String
  published_ts : Option Int
deriving DecidableEq, Repr

/-- `compute_seen_key` (line 318): the sha1 hex digest of the newline-joined
    4-tuple `(feed_url, unique_id, link, title)`. The sha1 hex function is
    Python stdlib `hashlib` and is passed as the parameter `sha1hex`. -/
def compute_seen_key (sha1hex : String → String) (item : FeedItem) : String :=
  sha1hex (item.feed_url ++ "\n" ++ item.unique_id ++ "\n" ++ item.link ++ "\n" ++ item.title)

/-- `parse_rfc2822_date` (line 239): wraps stdlib `parsedate_to_datetime`
    plus the UTC default and epoch conversion; the whole wrapped computation
    is the parameter `rfc`, returning `none` exactly when the `except`
    branch would return `None`. -/
def parse_rfc2822_date (rfc : String → Option Int) (text : String) : Option Int := rfc text

/-- `parse_iso8601_date` (line 249): strips the text, rewrites a trailing `Z`
    to `+00:00`, then applies stdlib `datetime.fromisoformat` plus the UTC
    default and epoch conversion (parameter `iso`, `none` on failure). -/
def parse_iso8601_date (iso : String → Option Int) (text : String) : Option Int :=
  let cleaned := pstrip text
  let cleaned := if listEnds ['Z'] cleaned.data then ⟨cleaned.data.dropLast⟩ ++ "+00:00" else cleaned
  iso cleaned

/-- An `xml.etree.ElementTree` element: tag (in Clark notation for namespaced
    tags, `\x7buri\x7dlocal`), attributes, text, children. -/
inductive XmlElem where
  | mk (tag : String) (attrs : List (String × String)) (text : Option String)
      (children : List XmlElem)

def XmlElem.tag : XmlElem → String
  | .mk t _ _ _ => t

def XmlElem.attrs : XmlElem → List (String × String)
  | .mk _ a _ _ => a

def XmlElem.text : XmlElem → Option String
  | .mk _ _ tx _ => tx

def XmlElem.children : XmlElem → List XmlElem
  | .mk _ _ _ cs => cs

/-- `element.findall(tag)` for a plain or Clark-notation tag: the matching
    direct children in document order. -/
def XmlElem.findall (e : XmlElem) (t : String) : List XmlElem :=
  e.children.filter (fun c => c.tag == t)

/-- `element.find(tag)`: the first matching direct child. -/
def XmlElem.findFirst (e : XmlElem) (t : String) : Option XmlElem :=
  e.children.find? (fun c => c.tag == t)

/-- `element.findall("\x7b*\x7dtag")`: direct children whose tag matches in
    any namespace or in none. -/
def XmlElem.findallAnyNs (e : XmlElem) (t : String) : List XmlElem :=
  e.children.filter (fun c => c.tag == t || listEnds ("\x7d" ++ t).data c.tag.data)

/-- `element.get(attr)`. -/
def XmlElem.attr (e : XmlElem) (k : String) : Option String := hget e.attrs k

/-- `element.findtext(tag)`: the text of the first matching child (`""` when
    that child has no text), or `None` when no child matches. -/
def XmlElem.findtext (e : XmlElem) (t : String) : Option String :=
  (e.findFirst t).map (fun c => c.text.getD "")

/-- Python `(x or "")` for an optional string. -/
def textOrEmpty (o : Option String) : String := o.getD ""

/-- ASCII lowercasing, Python `str.lower()` on ASCII tag names. -/
def asciiLower (s : String) : String := ⟨s.data.map Char.toLower⟩

/-- The Atom namespace prefix used by `parse_feed`. -/
def atomNs : String := "\x7bhttp://www.w3.org/2005/Atom\x7d"

/-- The Atom link selection loop (lines 288-294): the first `link` child with
    a nonempty `href` whose `rel` is absent or `"alternate"`. -/
def atomLink (entry : XmlElem) : String :=
  match (entry.findall (atomNs ++ "link")).find? (fun l =>
      ((l.attr "href").getD "" != "") &&
        (l.attr "rel" == none || l.attr "rel" == some "alternate")) with
  | some l => (l.attr "href").getD ""
  | none => ""

/-- `parse_feed` (line 273). The input `doc` is the outcome of
    `ET.fromstring` on the stripped bytes: `none` when the XML is malformed
    (the `except` branch returns the still-empty item list). -/
def parse_feed (iso rfc : String → Option Int) (feed_url : String)
    (doc : Option XmlElem) : List FeedItem :=
  match doc with
  | none => []
  | some root =>
    let tagL := asciiLower root.tag
    if listEnds "feed".data tagL.data &&
        (listHasSub "atom".data tagL.data || listStarts atomNs.data root.tag.data) then
      (root.findall (atomNs ++ "entry")).map (fun entry =>
        let title := pstrip (textOrEmpty (entry.findtext (atomNs ++ "title")))
        let link := atomLink entry
        let entry_id :=
          pstrip (pyOrS (entry.findtext (atomNs ++ "id")) (pyOrSS link title))
        let pub :=
          pstrip (pyOrS (entry.findtext (atomNs ++ "published"))
            (pyOrS (entry.findtext (atomNs ++ "updated")) ""))
        let ts := if pub ≠ "" then parse_iso8601_date iso pub else none
        FeedItem.mk feed_url (pyOrSS entry_id (pyOrSS link title)) title link ts)
    else
      let candidates :=
        match root.findFirst "channel" with
        | none => pyOrL (root.findall "item") (root.findallAnyNs "item")
        | some channel => pyOrL (channel.findall "item") (channel.findallAnyNs "item")
      candidates.map (fun it =>
        let title := pstrip (textOrEmpty (it.findtext "title"))
        let link := pstrip (textOrEmpty (it.findtext "link"))
        let guid := pstrip (pyOrS (it.findtext "guid") (pyOrSS link title))
        let pub := pstrip (textOrEmpty (it.findtext "pubDate"))
        let ts := if pub ≠ "" then parse_rfc2822_date rfc pub else none
        FeedItem.mk feed_url (pyOrSS guid (pyOrSS link title)) title link ts)

/-- One HTTP fetch outcome as seen by `worker`: either a raised transport
    error, or a response with status code, body (the `ET.fromstring` outcome
    of the decompressed bytes) and headers. -/
inductive FetchOutcome where
  | err
  | resp (status : Nat) (body : Option XmlElem) (headers : List (String × String))

/-- `worker` (line 527): the per-feed fetch task body. It never raises:
    a 304 yields zero items with the response headers, any other non-200
    status raises `RuntimeError` which the enclosing `except` turns into
    `(url, [], \x7b\x7d)`, and a 200 parses the body. -/
def worker (iso rfc : String → Option Int) (url : String) (oc : FetchOutcome) :
    String × List FeedItem × List (String × String) :=
  match oc with
  | .err => (url, [], [])
  | .resp status body headers =>
    if status = 304 then (url, [], headers)
    else if status ≠ 200 then (url, [], [])
    else (url, parse_feed iso rfc url body, headers)

/-- One cached validator record, `\x7b"etag": ..., "last_modified": ...\x7d`. -/
structure MetaEntry where
  etag : Option String
  last_modified : Option String
deriving DecidableEq, Repr

/-- The metadata cache: a dict from feed URL to validator record. -/
abbrev MetaMap := List (String × MetaEntry)

/-- `meta.get(url)`. -/
def mget (m : MetaMap) (url : String) : Option MetaEntry :=
  (m.find? (fun p => p.1 == url)).map Prod.snd

/-- `meta[url] = e`. -/
def mset (m : MetaMap) (url : String) (e : MetaEntry) : MetaMap :=
  if (m.find? (fun p => p.1 == url)).isSome
  then m.map (fun p => if p.1 == url then (p.1, e) else p)
  else m ++ [(url, e)]

/-- The header-driven metadata update for one completed fetch result
    (main, lines 563-570): skipped when the headers dict is empty or carries
    no truthy validator; otherwise the entry is overwritten, each field
    falling back to the previously cached value. -/
def aggregateStep (meta : MetaMap)
    (r : String × List FeedItem × List (String × String)) : MetaMap :=
  let url := r.1
  let headers := r.2.2
  if headers = [] then meta
  else
    let newEtag := pyOr (hget headers "ETag") (hget headers "etag")
    let newLm := pyOr (hget headers "Last-Modified") (hget headers "last-modified")
    if pyTruthy newEtag || pyTruthy newLm then
      let old := (mget meta url).getD ⟨none, none⟩
      mset meta url ⟨pyOr newEtag old.etag, pyOr newLm old.last_modified⟩
    else meta

/-- `sort_key` (line 592): `(published_ts if not None else 0, seen key)`. -/
def sort_key (sha1hex : String → String) (it : FeedItem) : Int × String :=
  (it.published_ts.getD 0, compute_seen_key sha1hex it)

/-- The descending order used by `all_items.sort(key=sort_key, reverse=True)`:
    `a` precedes `b` when `a`'s key is at least `b`'s under the lexicographic
    order on `(int, str)` pairs. -/
def itemGe (sha1hex : String → String) (a b : FeedItem) : Prop :=
  (sort_key sha1hex b).1 < (sort_key sha1hex a).1 ∨
    ((sort_key sha1hex b).1 = (sort_key sha1hex a).1 ∧
      charLexLe (sort_key sha1hex b).2.data (sort_key sha1hex a).2.data = true)

instance (sha1hex : String → String) : DecidableRel (itemGe sha1hex) := fun a b => by
  unfold itemGe; infer_instance

/-- The sort at line 596 (a stable sort in descending key order). -/
def sortItems (sha1hex : String → String) (l : List FeedItem) : List FeedItem :=
  List.insertionSort (itemGe sha1hex) l

/-- The publish loop (lines 598-617). `post` gives the `post_with_retry`
    outcome for each item. Returns the final `new_seen`, the `posted`
    counter, and the successfully posted items in order. -/
def publishLoop (sha1hex : String → String) (post : FeedItem → Bool)
    (seen : Finset String) (max_per_run : Nat) :
    List FeedItem → Finset String → Nat → Finset String × Nat × List FeedItem
  | [], new_seen, posted => (new_seen, posted, [])
  | item :: rest, new_seen, posted =>
    if max_per_run ≤ posted then (new_seen, posted, [])
    else
      let key := compute_seen_key sha1hex item
      if key ∈ seen then publishLoop sha1hex post seen max_per_run rest new_seen posted
      else if post item then
        let r := publishLoop sha1hex post seen max_per_run rest (insert key new_seen) (posted + 1)
        (r.1, r.2.1, item :: r.2.2)
      else publishLoop sha1hex post seen max_per_run rest new_seen posted

/-- What one run of `main` did after the fetch join: the merged items, the
    publish outcomes, and whether the two persistence writes ran. -/
structure RunResult where
  all_items : List FeedItem
  posted_items : List FeedItem
  posted : Nat
  new_seen : Finset String
  meta_out : MetaMap
  saved_seen : Bool
  saved_meta : Bool

/-- `main` from the fetch join onward (lines 559-628): consume the completed
    fetch results (items merged, metadata updated), return early when no
    items were parsed (lines 587-589, skipping everything including
    `save_meta`), otherwise sort, run the publish loop, save the seen store
    when `posted > 0 and new_seen != seen` (line 619), and save the
    metadata unconditionally (line 623). -/
def runMain (sha1hex : String → String) (post : FeedItem → Bool) (max_per_run : Nat)
    (seen : Finset String) (meta0 : MetaMap)
    (results : List (String × List FeedItem × List (String × String))) : RunResult :=
  let all_items := results.flatMap (fun r => r.2.1)
  let meta := results.foldl aggregateStep meta0
  if all_items.isEmpty then
    { all_items := all_items, posted_items := [], posted := 0, new_seen := seen,
      meta_out := meta, saved_seen := false, saved_meta := false }
  else
    let sorted := sortItems sha1hex all_items
    let r := publishLoop sha1hex post seen max_per_run sorted seen 0
    { all_items := all_items, posted_items := r.2.2, posted := r.2.1, new_seen := r.1,
      meta_out := meta,
      saved_seen := decide (0 < r.2.1) && decide (r.1 ≠ seen),
      saved_meta := true }

/-- Ascending Python string order, used by `sorted(set(seen))`. -/
def sLE (a b : String) : Prop := charLexLe a.data b.data = true

instance : DecidableRel sLE := fun a b => by unfold sLE; infer_instance

theorem charLexLe_refl (a : List Char) : charLexLe a a = true := by
  induction a with
  | nil => rfl
  | cons x xs ih => simp [charLexLe, ih]

theorem charLexLe_total (a b : List Char) :
    charLexLe a b = true ∨ charLexLe b a = true := by
  induction a generalizing b with
  | nil => left; rfl
  | cons x xs ih =>
    cases b with
    | nil => right; rfl
    | cons y ys =>
      by_cases h1 : x.toNat < y.toNat
      · left; simp [charLexLe, h1]
      · by_cases h2 : y.toNat < x.toNat
        · right; simp [charLexLe, h2]
        · rcases ih ys with h | h
          · left; simp [charLexLe, h1, h2, h]
          · right; simp [charLexLe, h1, h2, h]

theorem charLexLe_trans {a b c : List Char} (hab : charLexLe a b = true)
    (hbc : charLexLe b c = true) : charLexLe a c = true := by
  induction a generalizing b c with
  | nil => rfl
  | cons x xs ih =>
    cases b with
    | nil => simp [charLexLe] at hab
    | cons y ys =>
      cases c with
      | nil => simp [charLexLe] at hbc
      | cons z zs =>
        simp only [charLexLe] at hab hbc ⊢
        rcases Nat.lt_trichotomy x.toNat y.toNat with h1 | h1 | h1
        · rcases Nat.lt_trichotomy y.toNat z.toNat with h2 | h2 | h2
          · simp [show x.toNat < z.toNat by omega]
          · simp [show x.toNat < z.toNat by omega]
          · simp [show ¬ y.toNat < z.toNat by omega, h2] at hbc
        · rcases Nat.lt_trichotomy y.toNat z.toNat with h2 | h2 | h2
          · simp [show x.toNat < z.toNat by omega]
          · simp only [show ¬ x.toNat < y.toNat by omega,
              show ¬ y.toNat < x.toNat by omega, if_false] at hab
            simp only [show ¬ y.toNat < z.toNat by omega,
              show ¬ z.toNat < y.toNat by omega, if_false] at hbc
            simp only [show ¬ x.toNat < z.toNat by omega,
              show ¬ z.toNat < x.toNat by omega, if_false]
            exact ih hab hbc
          · simp [show ¬ y.toNat < z.toNat by omega, h2] at hbc
        · simp [show ¬ x.toNat < y.toNat by omega, h1] at hab

theorem charLexLe_antisymm {a b : List Char} (hab : charLexLe a b = true)
    (hba : charLexLe b a = true) : a = b := by
  induction a generalizing b with
  | nil =>
    cases b with
    | nil => rfl
    | cons y ys => simp [charLexLe] at hba
  | cons x xs ih =>
    cases b with
    | nil => simp [charLexLe] at hab
    | cons y ys =>
      rcases Nat.lt_trichotomy x.toNat y.toNat with h1 | h1 | h1
      · simp [charLexLe, show ¬ y.toNat < x.toNat by omega, h1] at hba
      · have hx : x = y := by
          have h2 : x.val.toBitVec = y.val.toBitVec := by
            apply BitVec.toNat_injective
            exact h1
          cases x; cases y
          simp only [Char.toNat] at h1
          congr 1
          exact UInt32.toBitVec_injective h2
        subst hx
        simp only [charLexLe, lt_irrefl, if_false] at hab hba
        exact congrArg (x :: ·) (ih hab hba)
      · simp [charLexLe, show ¬ x.toNat < y.toNat by omega, h1] at hab

instance : IsTrans String sLE := ⟨fun _ _ _ => charLexLe_trans⟩

instance : IsAntisymm String sLE :=
  ⟨fun a b h1 h2 => by
    cases a; cases b
    exact congrArg String.mk (charLexLe_antisymm h1 h2)⟩

instance : IsTotal String sLE := ⟨fun a b => charLexLe_total a.data b.data⟩

/-- A write of the seen store: the file content and whether the atomic
    temp-file-and-rename path ran (`false` = the direct-write fallback). -/
structure SeenWrite where
  content : List String
  atomic : Bool
deriving DecidableEq

/-- The lines `save_seen` (line 337) writes: `sorted(set(seen))`. -/
def saveSeenLines (seen : Finset String) : List String :=
  Finset.sort sLE seen

/-- `save_seen` (line 337): write the sorted key set, one hex key per line,
    through a temp file renamed over the target; on failure fall back to a
    direct write of the same content. -/
def save_seen (atomicOk : Bool) (seen : Finset String) : SeenWrite :=
  if atomicOk then { content := saveSeenLines seen, atomic := true }
  else { content := saveSeenLines seen, atomic := false }

/-- A webhook POST response: status code and headers. -/
structure PostResp where
  code : Nat
  headers : List (String × String)

/-- The retry-after computation of `post_with_retry` (lines 412-418):
    `headers.get("Retry-After") or headers.get("retry-after")`; when that is
    `None` the initial 0.0 stands, when `float(...)` raises the `except`
    branch sets 1.0, otherwise the parsed value. `toFloat` models Python
    `float(...)` (`none` exactly when it raises). -/
def retryAfterSeconds (toFloat : String → Option ℚ) (headers : List (String × String)) : ℚ :=
  match pyOr (hget headers "Retry-After") (hget headers "retry-after") with
  | none => 0
  | some v => (toFloat v).getD 1

/-- `post_with_retry` (line 407). `r1` and `r2` are the responses the
    webhook would give to the first and (if made) second POST. Returns
    (success, number of POSTs made, sleep durations performed in order). -/
def post_with_retry (toFloat : String → Option ℚ) (r1 r2 : PostResp) :
    Bool × Nat × List ℚ :=
  if r1.code = 204 ∨ r1.code = 200 then (true, 1, [])
  else if r1.code = 429 then
    let sleep := min (max (retryAfterSeconds toFloat r1.headers) 0) 10
    if r2.code = 204 ∨ r2.code = 200 then (true, 2, [sleep]) else (false, 2, [sleep])
  else (false, 1, [])

/-- One submitted fetch task in the timed model: its URL, how long its
    `worker` call runs once started, and the `(items, headers)` part of the
    triple `worker` returns when it completes. -/
structure TimedFetch where
  url : String
  dur : ℚ
  result : List FeedItem × List (String × String)

/-- Remove the first occurrence of the minimum from a list of worker
    free-at times, returning it. -/
def popMin : List ℚ → ℚ × List ℚ
  | [] => (0, [])
  | [x] => (x, [])
  | x :: y :: rest =>
    let r := popMin (y :: rest)
    if x ≤ r.1 then (x, y :: rest) else (r.1, x :: r.2)

/-- Start/finish times of tasks submitted in order to a pool whose workers
    are free at the given times (each task starts on the earliest-free
    worker, as in `ThreadPoolExecutor`). -/
def poolSchedule (free : List ℚ) : List ℚ → List (ℚ × ℚ)
  | [] => []
  | d :: ds =>
    let p := popMin free
    (p.1, p.1 + d) :: poolSchedule ((p.1 + d) :: p.2) ds

/-- Start/finish times under a pool of `c` workers all free at time 0. -/
def poolTimes (c : Nat) (durs : List ℚ) : List (ℚ × ℚ) :=
  poolSchedule (List.replicate c 0) durs

/-- What the fetch phase produced and when it ended. -/
structure FetchPhase where
  doneResults : List (String × List FeedItem × List (String × String))
  skippedUrls : List String
  waitReturn : ℚ
  phaseEnd : ℚ

/-- The fetch phase (lines 556-585): submit one task per feed to a pool of
    `c` workers; `cf.wait(..., timeout=budget)` returns once every future is
    done or at the budget; only futures done by then are consumed; each
    unfinished future is cancelled (which only prevents not-yet-started
    tasks from running) and one skip is logged per unfinished future with a
    nonempty URL (the `if u:` guard). Leaving the `with` block then runs
    `ThreadPoolExecutor.shutdown(wait=True)`, which joins the still-running
    workers, so the phase ends only when every started task has finished. -/
def fetchPhase (c : Nat) (budget : ℚ) (tasks : List TimedFetch) : FetchPhase :=
  let timed := tasks.zip (poolTimes c (tasks.map (fun t => t.dur)))
  let doneT := timed.filter (fun p => decide (p.2.2 ≤ budget))
  let notDoneT := timed.filter (fun p => decide (budget < p.2.2))
  let runningT := notDoneT.filter (fun p => decide (p.2.1 ≤ budget))
  let waitReturn := if notDoneT.isEmpty then (timed.map (fun p => p.2.2)).foldr max 0 else budget
  { doneResults := doneT.map (fun p => (p.1.url, p.1.result.1, p.1.result.2))
    skippedUrls := (notDoneT.map (fun p => p.1.url)).filter (fun u => u ≠ "")
    waitReturn := waitReturn
    phaseEnd := (runningT.map (fun p => p.2.2)).foldr max waitReturn }

/-! URL model: `urllib.parse.urlparse`, `urlunparse` and their helpers, over
    character lists, following the CPython implementation (`urlsplit`,
    `_splitnetloc`, `_splitparams`, `urlunsplit`, the `hostname` property).
    A raised `ValueError` (unbalanced IPv6 bracket) is modelled as `none`;
    the stricter unicode checks of `_check_bracketed_host`/`_checknetloc`,
    which also only raise, are not modelled. -/

/-- CPython `scheme_chars`: ASCII letters, digits, `+`, `-`, `.`. -/
def schemeChar (c : Char) : Bool :=
  c.isAlpha || c.isDigit || c == '+' || c == '-' || c == '.'

/-- Split at the first occurrence of `c`: `(before, some after)` when found,
    `(l, none)` otherwise. -/
def splitOnFirst (c : Char) : List Char → List Char × Option (List Char)
  | [] => ([], none)
  | x :: xs =>
    if x = c then ([], some xs)
    else
      let r := splitOnFirst c xs
      (x :: r.1, r.2)

/-- Split at the last occurrence of `c`: `(before, some after)` when found,
    `(l, none)` otherwise. -/
def splitOnLast (c : Char) (l : List Char) : List Char × Option (List Char) :=
  match splitOnFirst c l.reverse with
  | (_, none) => (l, none)
  | (a, some b) => (b.reverse, some a.reverse)

/-- Python `str.lower()` on the characters of a URL scheme. -/
def lowerChars (l : List Char) : List Char := l.map Char.toLower

/-- A character `urlsplit` deletes anywhere in its input (tab, CR, LF). -/
def unsafeUrlChar (c : Char) : Bool := c == '\t' || c == '\r' || c == '\n'

/-- `urlsplit` input sanitization: strip leading C0 controls and space, then
    delete every tab, CR and LF. -/
def sanitizeUrl (l : List Char) : List Char :=
  (l.dropWhile (fun c => decide (c.toNat ≤ 32))).filter (fun c => ! unsafeUrlChar c)

/-- Scheme extraction: the text before the first `:` when it starts with an
    ASCII letter and continues with scheme characters; lowercased. Returns
    `(scheme, rest)`, with scheme `[]` and the input unchanged otherwise. -/
def splitScheme (url : List Char) : List Char × List Char :=
  match splitOnFirst ':' url with
  | (_, none) => ([], url)
  | (pre, some post) =>
    match pre with
    | [] => ([], url)
    | c0 :: rest =>
      if c0.isAlpha && rest.all schemeChar then (lowerChars pre, post) else ([], url)

/-- A character ending the netloc in `_splitnetloc`. -/
def netlocDelim (c : Char) : Bool := c == '/' || c == '?' || c == '#'

/-- Netloc extraction: when the rest starts with `//`, the run up to the
    first of `/`, `?`, `#`. -/
def splitNetloc (rest : List Char) : List Char × List Char :=
  match rest with
  | '/' :: '/' :: r =>
    (r.takeWhile (fun c => ! netlocDelim c), r.dropWhile (fun c => ! netlocDelim c))
  | _ => ([], rest)

/-- The `ValueError`-raising IPv6 bracket balance check of `urlsplit`. -/
def bracketBad (netloc : List Char) : Bool :=
  (netloc.contains '[' && ! netloc.contains ']') ||
    (netloc.contains ']' && ! netloc.contains '[')

/-- Fragment split: at the first `#`, when present. -/
def splitFragment (url : List Char) : List Char × List Char :=
  match splitOnFirst '#' url with
  | (_, none) => (url, [])
  | (a, some b) => (a, b)

/-- Query split: at the first `?`, when present. -/
def splitQuery (url : List Char) : List Char × List Char :=
  match splitOnFirst '?' url with
  | (_, none) => (url, [])
  | (a, some b) => (a, b)

/-- CPython `_splitparams`: split the params off the last path segment (at the
    first `;` after the last `/`, or the first `;` when there is no `/`). -/
def splitParams (url : List Char) : List Char × List Char :=
  if url.contains '/' then
    match splitOnLast '/' url with
    | (before, some seg) =>
      match splitOnFirst ';' seg with
      | (_, none) => (url, [])
      | (a, some b) => (before ++ '/' :: a, b)
    | (_, none) => (url, [])
  else
    match splitOnFirst ';' url with
    | (_, none) => (url, [])
    | (a, some b) => (a, b)

/-- The six components of `urllib.parse.urlparse`. -/
structure ParseResult where
  scheme : List Char
  netloc : List Char
  path : List Char
  params : List Char
  query : List Char
  fragment : List Char
deriving DecidableEq, Repr

/-- `urllib.parse.urlparse`; `none` models a raised `ValueError`. -/
def urlparse (raw : List Char) : Option ParseResult :=
  let url := sanitizeUrl raw
  let s := splitScheme url
  let n := splitNetloc s.2
  if bracketBad n.1 then none
  else
    let f := splitFragment n.2
    let q := splitQuery f.1
    let pp := if q.1.contains ';' then splitParams q.1 else (q.1, [])
    some ⟨s.1, n.1, pp.1, pp.2, q.2, f.2⟩

/-- The `hostname` property of a parse result: the netloc after the last `@`,
    then either the bracketed host or the part before the first `:`,
    lowercased; `None` when empty. -/
def hostnameOf (netloc : List Char) : Option (List Char) :=
  let hostinfo :=
    match splitOnLast '@' netloc with
    | (_, some after) => after
    | (_, none) => netloc
  let host :=
    if hostinfo.contains '[' then
      match splitOnFirst '[' hostinfo with
      | (_, some br) => (splitOnFirst ']' br).1
      | (_, none) => hostinfo
    else (splitOnFirst ':' hostinfo).1
  if host.isEmpty then none else some (lowerChars host)

/-- `urllib.parse.urlunparse` (via `urlunsplit`): rejoin the components,
    re-attaching params with `;`, restoring `//netloc` (with a `/` inserted
    before a relative path), `scheme:`, `?query` and `#fragment`. -/
def urlunparse (p : ParseResult) : List Char :=
  let url0 := if p.params.isEmpty then p.path else p.path ++ ';' :: p.params
  let url1 :=
    if ! p.netloc.isEmpty || listStarts ['/', '/'] url0 then
      let u := if ! url0.isEmpty && ! (url0.headD ' ' == '/') then '/' :: url0 else url0
      '/' :: '/' :: (p.netloc ++ u)
    else url0
  let url2 := if p.scheme.isEmpty then url1 else p.scheme ++ ':' :: url1
  let url3 := if p.query.isEmpty then url2 else url2 ++ '?' :: p.query
  if p.fragment.isEmpty then url3 else url3 ++ '#' :: p.fragment

/-- The fixed pieces of `normalize_feed_entry`. -/
def redditPre : List Char := "https://www.reddit.com/r/".data

def dotRss : List Char := ['.', 'r', 's', 's']

def slashRss : List Char := ['/', 'r', 's', 's']

def areNa : List Char := ['a', 'r', 'e', '.', 'n', 'a']

def httpChars : List Char := ['h', 't', 't', 'p']

def httpsChars : List Char := ['h', 't', 't', 'p', 's']

/-- The URL half of `normalize_feed_entry` (lines 147-159): parse the entry;
    for an http(s) URL whose hostname contains `are.na` and whose path ends
    with neither `.rss` nor `/rss`, append `.rss` to the path and rebuild;
    every other outcome (including a parse error) returns the entry. -/
def urlBranch (entry : List Char) : List Char :=
  match urlparse entry with
  | none => entry
  | some p =>
    if p.scheme = httpChars ∨ p.scheme = httpsChars then
      match hostnameOf p.netloc with
      | some host =>
        if listHasSub areNa host then
          if ! listEnds dotRss p.path && ! listEnds slashRss p.path then
            urlunparse { p with path := p.path ++ dotRss }
          else entry
        else entry
      | none => entry
    else entry

/-- `normalize_feed_entry` (line 140) over the characters of the entry:
    `r/<name>` (with no `://` anywhere) expands to the Reddit feed URL when
    the stripped name is nonempty; otherwise the URL branch runs. -/
def normalizeChars (entry : List Char) : List Char :=
  let sub := stripChars (fun c => c == '/') (stripChars isPyWs (entry.drop 2))
  if listStarts ['r', '/'] entry && ! listHasSub [':', '/', '/'] entry && ! sub.isEmpty then
    redditPre ++ sub ++ ('/' :: dotRss)
  else urlBranch entry

/-- `normalize_feed_entry` on strings. -/
def normalize_feed_entry (s : String) : String := ⟨normalizeChars s.data⟩

/-- No tab, CR or LF anywhere in the list. -/
def cleanL (l : List Char) : Prop := ∀ x ∈ l, unsafeUrlChar x = false

/-- The last `/`-separated segment of a path (or the whole path when it has
    no `/`) carries no `;`. -/
def lastSegNoSemi (l : List Char) : Prop :=
  match splitOnLast '/' l with
  | (_, some seg) => ';' ∉ seg
  | (_, none) => ';' ∉ l

/-! Helper lemmas. -/

theorem runMain_empty (sha1hex : String → String) (post : FeedItem → Bool)
    (max_per_run : Nat) (seen : Finset String) (meta0 : MetaMap)
    (results : List (String × List FeedItem × List (String × String)))
    (h : results.flatMap (fun r => r.2.1) = []) :
    runMain sha1hex post max_per_run seen meta0 results =
      { all_items := results.flatMap (fun r => r.2.1), posted_items := [], posted := 0,
        new_seen := seen, meta_out := results.foldl aggregateStep meta0,
        saved_seen := false, saved_meta := false } := by
  unfold runMain
  rw [if_pos]
  exact List.isEmpty_iff.mpr h

theorem runMain_nonempty (sha1hex : String → String) (post : FeedItem → Bool)
    (max_per_run : Nat) (seen : Finset String) (meta0 : MetaMap)
    (results : List (String × List FeedItem × List (String × String)))
    (h : results.flatMap (fun r => r.2.1) ≠ []) :
    runMain sha1hex post max_per_run seen meta0 results =
      (let r := publishLoop sha1hex post seen max_per_run
          (sortItems sha1hex (results.flatMap (fun r => r.2.1))) seen 0
       { all_items := results.flatMap (fun r => r.2.1), posted_items := r.2.2,
         posted := r.2.1, new_seen := r.1,
         meta_out := results.foldl aggregateStep meta0,
         saved_seen := decide (0 < r.2.1) && decide (r.1 ≠ seen),
         saved_meta := true }) := by
  unfold runMain
  rw [if_neg]
  simp only [List.isEmpty_iff]
  exact h

theorem publishLoop_nil (sha1hex : String → String) (post : FeedItem → Bool)
    (seen : Finset String) (q : Nat) (ns : Finset String) (p : Nat) :
    publishLoop sha1hex post seen q [] ns p = (ns, p, []) := rfl

theorem publishLoop_cons (sha1hex : String → String) (post : FeedItem → Bool)
    (seen : Finset String) (q : Nat) (x : FeedItem) (rest : List FeedItem)
    (ns : Finset String) (p : Nat) :
    publishLoop sha1hex post seen q (x :: rest) ns p =
      if q ≤ p then (ns, p, [])
      else if compute_seen_key sha1hex x ∈ seen then
        publishLoop sha1hex post seen q rest ns p
      else if post x then
        let r := publishLoop sha1hex post seen q rest
          (insert (compute_seen_key sha1hex x) ns) (p + 1)
        (r.1, r.2.1, x :: r.2.2)
      else publishLoop sha1hex post seen q rest ns p := rfl

theorem worker_304 (iso rfc : String → Option Int) (url : String)
    (body : Option XmlElem) (hs : List (String × String)) :
    worker iso rfc url (.resp 304 body hs) = (url, [], hs) := rfl

theorem publishLoop_posted_items_spec (sha1hex : String → String) (post : FeedItem → Bool)
    (seen : Finset String) (q : Nat) :
    ∀ (l : List FeedItem) (ns : Finset String) (p : Nat),
      ∀ it ∈ (publishLoop sha1hex post seen q l ns p).2.2,
        it ∈ l ∧ post it = true ∧ compute_seen_key sha1hex it ∉ seen := by
  intro l
  induction l with
  | nil => intro ns p it h; simp [publishLoop] at h
  | cons x rest ih =>
    intro ns p it h
    rw [publishLoop_cons] at h
    by_cases hq : q ≤ p
    · rw [if_pos hq] at h; simp at h
    · rw [if_neg hq] at h
      by_cases hseen : compute_seen_key sha1hex x ∈ seen
      · rw [if_pos hseen] at h
        rcases ih ns p it h with ⟨h1, h2, h3⟩
        exact ⟨List.mem_cons_of_mem _ h1, h2, h3⟩
      · rw [if_neg hseen] at h
        by_cases hpost : post x
        · rw [if_pos hpost] at h
          have h' : it ∈ x :: (publishLoop sha1hex post seen q rest
              (insert (compute_seen_key sha1hex x) ns) (p + 1)).2.2 := h
          rcases List.mem_cons.mp h' with h'' | h''
          · subst h''; exact ⟨List.mem_cons_self _ _, hpost, hseen⟩
          · rcases ih _ _ it h'' with ⟨h1, h2, h3⟩
            exact ⟨List.mem_cons_of_mem _ h1, h2, h3⟩
        · rw [if_neg (by simpa using hpost)] at h
          rcases ih ns p it h with ⟨h1, h2, h3⟩
          exact ⟨List.mem_cons_of_mem _ h1, h2, h3⟩

theorem publishLoop_new_seen_eq (sha1hex : String → String) (post : FeedItem → Bool)
    (seen : Finset String) (q : Nat) :
    ∀ (l : List FeedItem) (ns : Finset String) (p : Nat),
      (publishLoop sha1hex post seen q l ns p).1 =
        ns ∪ ((publishLoop sha1hex post seen q l ns p).2.2.map
          (compute_seen_key sha1hex)).toFinset := by
  intro l
  induction l with
  | nil => intro ns p; simp [publishLoop]
  | cons x rest ih =>
    intro ns p
    rw [publishLoop_cons]
    by_cases hq : q ≤ p
    · simp [if_pos hq]
    · rw [if_neg hq]
      by_cases hseen : compute_seen_key sha1hex x ∈ seen
      · rw [if_pos hseen]; exact ih ns p
      · rw [if_neg hseen]
        by_cases hpost : post x
        · rw [if_pos hpost]
          show (publishLoop sha1hex post seen q rest
              (insert (compute_seen_key sha1hex x) ns) (p + 1)).1 =
            ns ∪ ((x :: (publishLoop sha1hex post seen q rest
              (insert (compute_seen_key sha1hex x) ns) (p + 1)).2.2).map
                (compute_seen_key sha1hex)).toFinset
          rw [ih (insert (compute_seen_key sha1hex x) ns) (p + 1)]
          simp only [List.map_cons, List.toFinset_cons]
          ext k
          simp only [Finset.mem_union, Finset.mem_insert, List.mem_toFinset]
          tauto
        · rw [if_neg (by simpa using hpost)]
          exact ih ns p

theorem publishLoop_posted_count (sha1hex : String → String) (post : FeedItem → Bool)
    (seen : Finset String) (q : Nat) :
    ∀ (l : List FeedItem) (ns : Finset String) (p : Nat),
      (publishLoop sha1hex post seen q l ns p).2.1 =
        p + (publishLoop sha1hex post seen q l ns p).2.2.length := by
  intro l
  induction l with
  | nil => intro ns p; simp [publishLoop]
  | cons x rest ih =>
    intro ns p
    rw [publishLoop_cons]
    by_cases hq : q ≤ p
    · simp [if_pos hq]
    · rw [if_neg hq]
      by_cases hseen : compute_seen_key sha1hex x ∈ seen
      · rw [if_pos hseen]; exact ih ns p
      · rw [if_neg hseen]
        by_cases hpost : post x
        · rw [if_pos hpost]
          show (publishLoop sha1hex post seen q rest
              (insert (compute_seen_key sha1hex x) ns) (p + 1)).2.1 =
            p + (x :: (publishLoop sha1hex post seen q rest
              (insert (compute_seen_key sha1hex x) ns) (p + 1)).2.2).length
          rw [ih (insert (compute_seen_key sha1hex x) ns) (p + 1)]
          simp only [List.length_cons]
          omega
        · rw [if_neg (by simpa using hpost)]
          exact ih ns p

/-! Claim C3. -/

/-- Claim C3 counterexample: on a first 429 response carrying no Retry-After
    header at all, `post_with_retry` sleeps 0 seconds before the retry, not
    the 1 second the claim states as the absent-header default. -/
theorem claim_C3_counterexample :
    post_with_retry (fun _ => none) ⟨429, []⟩ ⟨500, []⟩ = (false, 2, [0]) ∧
      post_with_retry (fun _ => none) ⟨429, []⟩ ⟨500, []⟩ ≠ (false, 2, [1]) := by
  constructor
  · decide
  · decide

/-- Claim C3 (amended): a successful first POST (200/204) makes one attempt;
    a first 429 sleeps once for the retry-after duration — 0 when the header
    is absent, 1 when `float` fails on it, otherwise the parsed value —
    clamped to [0, 10], then retries exactly once, succeeding iff the second
    response is 200/204; any other first response is a final failure with a
    single attempt and no sleep. -/
theorem claim_C3_throttle_retry (toFloat : String → Option ℚ) (r1 r2 : PostResp) :
    (r1.code = 204 ∨ r1.code = 200 → post_with_retry toFloat r1 r2 = (true, 1, [])) ∧
    (r1.code = 429 →
      post_with_retry toFloat r1 r2 =
        (decide (r2.code = 204 ∨ r2.code = 200), 2,
          [min (max (retryAfterSeconds toFloat r1.headers) 0) 10]) ∧
      (pyOr (hget r1.headers "Retry-After") (hget r1.headers "retry-after") = none →
        retryAfterSeconds toFloat r1.headers = 0) ∧
      (∀ v, pyOr (hget r1.headers "Retry-After") (hget r1.headers "retry-after") = some v →
        toFloat v = none → retryAfterSeconds toFloat r1.headers = 1) ∧
      (∀ v x, pyOr (hget r1.headers "Retry-After") (hget r1.headers "retry-after") = some v →
        toFloat v = some x → retryAfterSeconds toFloat r1.headers = x) ∧
      0 ≤ min (max (retryAfterSeconds toFloat r1.headers) 0) 10 ∧
      min (max (retryAfterSeconds toFloat r1.headers) 0) 10 ≤ 10) ∧
    (r1.code ≠ 204 → r1.code ≠ 200 → r1.code ≠ 429 →
      post_with_retry toFloat r1 r2 = (false, 1, [])) := by
  refine ⟨?_, ?_, ?_⟩
  · intro h
    unfold post_with_retry
    rw [if_pos h]
  · intro h429
    have hno : ¬ (r1.code = 204 ∨ r1.code = 200) := by omega
    refine ⟨?_, ?_, ?_, ?_, ?_, ?_⟩
    · unfold post_with_retry
      rw [if_neg hno, if_pos h429]
      by_cases h2 : r2.code = 204 ∨ r2.code = 200
      · simp [h2]
      · simp [h2]
    · intro hnone; unfold retryAfterSeconds; rw [hnone]
    · intro v hv hf; unfold retryAfterSeconds; rw [hv]; simp [hf]
    · intro v x hv hf; unfold retryAfterSeconds; rw [hv]; simp [hf]
    · positivity
    · exact min_le_right _ _
  · intro h1 h2 h3
    unfold post_with_retry
    rw [if_neg (by omega), if_neg h3]

/-- Claim C3 witness: a 429 with an unparsable Retry-After header sleeps 1
    second (clamped) and the single retry's 204 makes the post succeed. -/
theorem claim_C3_throttle_retry_witness :
    post_with_retry (fun _ => none) ⟨429, [("Retry-After", "oops")]⟩ ⟨204, []⟩ =
      (true, 2, [1]) := by
  have h :=
    ((claim_C3_throttle_retry (fun _ => none) ⟨429, [("Retry-After", "oops")]⟩ ⟨204, []⟩).2.1
      rfl).1
  exact h.trans (by decide)

/-! Claim C4. -/

/-- Claim C4 counterexample: a run whose only feed answered 304 (zero items,
    validator headers present) takes the early return at lines 587-589 and
    never writes the metadata cache, contradicting the claim that every run
    entering the fetch phase persists it. -/
theorem claim_C4_counterexample :
    (runMain (fun s => s) (fun _ => true) 5 ∅ []
        [worker (fun _ => none) (fun _ => none) "u"
          (.resp 304 none [("ETag", "x")])]).saved_meta = false := by
  decide

/-- Claim C4 (amended): the metadata cache is written at run end exactly when
    at least one item was parsed — regardless of whether anything was posted;
    a run in which every feed returned 304 or failed parses zero items,
    returns early, and does not persist the metadata cache. -/
theorem claim_C4_meta_saved_iff (sha1hex : String → String) (post : FeedItem → Bool)
    (max_per_run : Nat) (seen : Finset String) (meta0 : MetaMap)
    (results : List (String × List FeedItem × List (String × String))) :
    (runMain sha1hex post max_per_run seen meta0 results).saved_meta = true ↔
      results.flatMap (fun r => r.2.1) ≠ [] := by
  by_cases h : results.flatMap (fun r => r.2.1) = []
  · rw [runMain_empty sha1hex post max_per_run seen meta0 results h]
    simp [h]
  · rw [runMain_nonempty sha1hex post max_per_run seen meta0 results h]
    simpa using h

/-- Claim C4 witness: a run with one parsed item and a failing webhook still
    saves the metadata cache. -/
theorem claim_C4_meta_saved_iff_witness :
    (runMain (fun s => s) (fun _ => false) 5 ∅ []
        [("u", [⟨"u", "i", "t", "l", none⟩], [])]).saved_meta = true := by
  exact (claim_C4_meta_saved_iff (fun s => s) (fun _ => false) 5 ∅ []
      [("u", [⟨"u", "i", "t", "l", none⟩], [])]).mpr (by decide)

/-! Claim C5. -/

/-- Claim C5 counterexample: a 304 fetch whose response carries an ETag
    header overwrites the previously cached validator entry for that feed,
    contradicting the claim that a 304 leaves the entry exactly as it was. -/
theorem claim_C5_counterexample :
    aggregateStep [("u", ⟨some "old", none⟩)]
        (worker (fun _ => none) (fun _ => none) "u" (.resp 304 none [("ETag", "new")])) =
      [("u", ⟨some "new", none⟩)] ∧
    aggregateStep [("u", ⟨some "old", none⟩)]
        (worker (fun _ => none) (fun _ => none) "u" (.resp 304 none [("ETag", "new")])) ≠
      [("u", ⟨some "old", none⟩)] := by
  constructor
  · decide
  · decide

/-- Claim C5 (amended): a 304 fetch contributes zero items and returns the
    304 response's headers; the cached metadata entry for the feed is left
    untouched when those headers are empty or carry no truthy validator, and
    is overwritten (each field falling back to the previously cached value)
    when they do carry an ETag or Last-Modified. -/
theorem claim_C5_304_meta (iso rfc : String → Option Int) (url : String)
    (body : Option XmlElem) (hs : List (String × String)) (meta : MetaMap) :
    (worker iso rfc url (.resp 304 body hs) = (url, [], hs)) ∧
    (hs = [] → aggregateStep meta (worker iso rfc url (.resp 304 body hs)) = meta) ∧
    (pyTruthy (pyOr (hget hs "ETag") (hget hs "etag")) = false →
      pyTruthy (pyOr (hget hs "Last-Modified") (hget hs "last-modified")) = false →
      aggregateStep meta (worker iso rfc url (.resp 304 body hs)) = meta) ∧
    (pyTruthy (pyOr (hget hs "ETag") (hget hs "etag")) = true ∨
        pyTruthy (pyOr (hget hs "Last-Modified") (hget hs "last-modified")) = true →
      aggregateStep meta (worker iso rfc url (.resp 304 body hs)) =
        mset meta url
          ⟨pyOr (pyOr (hget hs "ETag") (hget hs "etag"))
              ((mget meta url).getD ⟨none, none⟩).etag,
            pyOr (pyOr (hget hs "Last-Modified") (hget hs "last-modified"))
              ((mget meta url).getD ⟨none, none⟩).last_modified⟩) := by
  have hw : worker iso rfc url (.resp 304 body hs) = (url, [], hs) :=
    worker_304 iso rfc url body hs
  refine ⟨hw, ?_, ?_, ?_⟩
  · intro h
    rw [hw]
    unfold aggregateStep
    simp [h]
  · intro h1 h2
    rw [hw]
    unfold aggregateStep
    by_cases hnil : hs = []
    · simp [hnil]
    · simp [hnil, h1, h2]
  · intro h
    rw [hw]
    unfold aggregateStep
    have hnil : hs ≠ [] := by
      intro hh
      subst hh
      simp [hget, pyOr, pyTruthy] at h
    rcases h with h | h <;> simp [hnil, h]

/-- Claim C5 witness: a 304 with no validator headers (only a Date header)
    leaves a cached entry unchanged. -/
theorem claim_C5_304_meta_witness :
    aggregateStep [("u", ⟨some "old", none⟩)]
        (worker (fun _ => none) (fun _ => none) "u"
          (.resp 304 none [("Date", "x")])) =
      [("u", ⟨some "old", none⟩)] := by
  exact (claim_C5_304_meta (fun _ => none) (fun _ => none) "u" none [("Date", "x")]
      [("u", ⟨some "old", none⟩)]).2.2.1 (by decide) (by decide)

theorem runMain_new_seen_union (sha1hex : String → String) (post : FeedItem → Bool)
    (max_per_run : Nat) (seen : Finset String) (meta0 : MetaMap)
    (results : List (String × List FeedItem × List (String × String))) :
    (runMain sha1hex post max_per_run seen meta0 results).new_seen =
      seen ∪ ((runMain sha1hex post max_per_run seen meta0 results).posted_items.map
        (compute_seen_key sha1hex)).toFinset := by
  by_cases hemp : results.flatMap (fun r => r.2.1) = []
  · rw [runMain_empty sha1hex post max_per_run seen meta0 results hemp]
    simp
  · rw [runMain_nonempty sha1hex post max_per_run seen meta0 results hemp]
    exact publishLoop_new_seen_eq sha1hex post seen max_per_run _ seen 0

theorem runMain_posted_items_spec (sha1hex : String → String) (post : FeedItem → Bool)
    (max_per_run : Nat) (seen : Finset String) (meta0 : MetaMap)
    (results : List (String × List FeedItem × List (String × String))) :
    ∀ it ∈ (runMain sha1hex post max_per_run seen meta0 results).posted_items,
      it ∈ results.flatMap (fun r => r.2.1) ∧ post it = true ∧
        compute_seen_key sha1hex it ∉ seen := by
  by_cases hemp : results.flatMap (fun r => r.2.1) = []
  · rw [runMain_empty sha1hex post max_per_run seen meta0 results hemp]
    simp
  · rw [runMain_nonempty sha1hex post max_per_run seen meta0 results hemp]
    intro it h
    rcases publishLoop_posted_items_spec sha1hex post seen max_per_run _ seen 0 it h
      with ⟨h1, h2, h3⟩
    exact ⟨(List.perm_insertionSort (itemGe sha1hex) _).mem_iff.mp h1, h2, h3⟩

theorem runMain_posted_len (sha1hex : String → String) (post : FeedItem → Bool)
    (max_per_run : Nat) (seen : Finset String) (meta0 : MetaMap)
    (results : List (String × List FeedItem × List (String × String))) :
    (runMain sha1hex post max_per_run seen meta0 results).posted =
      (runMain sha1hex post max_per_run seen meta0 results).posted_items.length := by
  by_cases hemp : results.flatMap (fun r => r.2.1) = []
  · rw [runMain_empty sha1hex post max_per_run seen meta0 results hemp]
    rfl
  · rw [runMain_nonempty sha1hex post max_per_run seen meta0 results hemp]
    have h := publishLoop_posted_count sha1hex post seen max_per_run
      (sortItems sha1hex (results.flatMap (fun r => r.2.1))) seen 0
    simpa using h

theorem runMain_saved_seen_eq (sha1hex : String → String) (post : FeedItem → Bool)
    (max_per_run : Nat) (seen : Finset String) (meta0 : MetaMap)
    (results : List (String × List FeedItem × List (String × String))) :
    (runMain sha1hex post max_per_run seen meta0 results).saved_seen =
      (decide (0 < (runMain sha1hex post max_per_run seen meta0 results).posted) &&
        decide ((runMain sha1hex post max_per_run seen meta0 results).new_seen ≠ seen)) := by
  by_cases hemp : results.flatMap (fun r => r.2.1) = []
  · rw [runMain_empty sha1hex post max_per_run seen meta0 results hemp]
    simp
  · rw [runMain_nonempty sha1hex post max_per_run seen meta0 results hemp]

/-! Claim C2. -/

/-- Claim C2: an item whose seen key is in the dedup store loaded at run
    start is never posted (the loop skips it before any webhook call), so a
    re-run in which every merged item's key is already recorded posts
    nothing, adds nothing to the seen set, and does not rewrite the store. -/
theorem claim_C2_idempotent_delivery (sha1hex : String → String) (post : FeedItem → Bool)
    (max_per_run : Nat) (seen : Finset String) (meta0 : MetaMap)
    (results : List (String × List FeedItem × List (String × String))) :
    (∀ it ∈ (runMain sha1hex post max_per_run seen meta0 results).posted_items,
      compute_seen_key sha1hex it ∉ seen) ∧
    ((∀ it ∈ results.flatMap (fun r => r.2.1), compute_seen_key sha1hex it ∈ seen) →
      (runMain sha1hex post max_per_run seen meta0 results).posted_items = [] ∧
      (runMain sha1hex post max_per_run seen meta0 results).posted = 0 ∧
      (runMain sha1hex post max_per_run seen meta0 results).new_seen = seen ∧
      (runMain sha1hex post max_per_run seen meta0 results).saved_seen = false) := by
  constructor
  · intro it h
    exact (runMain_posted_items_spec sha1hex post max_per_run seen meta0 results it h).2.2
  · intro hall
    have hnil : (runMain sha1hex post max_per_run seen meta0 results).posted_items = [] := by
      rw [List.eq_nil_iff_forall_not_mem]
      intro it hmem
      rcases runMain_posted_items_spec sha1hex post max_per_run seen meta0 results it hmem
        with ⟨h1, _, h3⟩
      exact h3 (hall it h1)
    have hns := runMain_new_seen_union sha1hex post max_per_run seen meta0 results
    rw [hnil] at hns
    simp only [List.map_nil, List.toFinset_nil, Finset.union_empty] at hns
    have hcount := runMain_posted_len sha1hex post max_per_run seen meta0 results
    rw [hnil] at hcount
    simp only [List.length_nil] at hcount
    refine ⟨hnil, hcount, hns, ?_⟩
    rw [runMain_saved_seen_eq sha1hex post max_per_run seen meta0 results, hcount]
    simp

/-- Claim C2 witness: with the single merged item's key already in the
    loaded store, the run posts nothing. -/
theorem claim_C2_idempotent_delivery_witness :
    (runMain (fun s => s) (fun _ => true) 5 (insert "u\ni\nl\nt" ∅) []
        [("u", [⟨"u", "i", "t", "l", none⟩], [])]).posted_items = [] := by
  exact ((claim_C2_idempotent_delivery (fun s => s) (fun _ => true) 5
      (insert "u\ni\nl\nt" ∅) [] [("u", [⟨"u", "i", "t", "l", none⟩], [])]).2
      (by decide)).1

/-! Claim C7. -/

/-- Claim C7: the final seen set is exactly the loaded set united with the
    keys of the successfully posted items — a selected item's key enters the
    in-memory delta exactly when its post succeeded; every posted item passed
    the publish predicate, and when every post fails the seen set is
    unchanged, leaving failed items eligible for the next run. -/
theorem claim_C7_seen_delta (sha1hex : String → String) (post : FeedItem → Bool)
    (max_per_run : Nat) (seen : Finset String) (meta0 : MetaMap)
    (results : List (String × List FeedItem × List (String × String))) :
    (runMain sha1hex post max_per_run seen meta0 results).new_seen =
      seen ∪ ((runMain sha1hex post max_per_run seen meta0 results).posted_items.map
        (compute_seen_key sha1hex)).toFinset ∧
    (∀ it ∈ (runMain sha1hex post max_per_run seen meta0 results).posted_items,
      post it = true) ∧
    ((∀ it, post it = false) →
      (runMain sha1hex post max_per_run seen meta0 results).new_seen = seen) := by
  have hunion := runMain_new_seen_union sha1hex post max_per_run seen meta0 results
  have hpost : ∀ it ∈ (runMain sha1hex post max_per_run seen meta0 results).posted_items,
      post it = true := fun it h =>
    (runMain_posted_items_spec sha1hex post max_per_run seen meta0 results it h).2.1
  refine ⟨hunion, hpost, ?_⟩
  intro hfail
  have hnil : (runMain sha1hex post max_per_run seen meta0 results).posted_items = [] := by
    rw [List.eq_nil_iff_forall_not_mem]
    intro it hmem
    have := hpost it hmem
    rw [hfail it] at this
    exact Bool.false_ne_true this
  rw [hunion, hnil]
  simp

/-- Claim C7 witness: when the webhook fails on every item, the seen set is
    exactly the loaded one. -/
theorem claim_C7_seen_delta_witness :
    (runMain (fun s => s) (fun _ => false) 5 ∅ []
        [("u", [⟨"u", "i", "t", "l", none⟩], [])]).new_seen = ∅ := by
  exact (claim_C7_seen_delta (fun s => s) (fun _ => false) 5 ∅ []
      [("u", [⟨"u", "i", "t", "l", none⟩], [])]).2.2 (fun _ => rfl)

/-! Claim C9. -/

/-- Claim C9: the seen store is rewritten at run end iff its key set changed
    (iff some new key was added); every write — atomic temp-and-rename or the
    direct fallback — carries the same content: the full key set, sorted
    ascending, without duplicates, one line per key. -/
theorem claim_C9_seen_store_write (sha1hex : String → String) (post : FeedItem → Bool)
    (max_per_run : Nat) (seen : Finset String) (meta0 : MetaMap)
    (results : List (String × List FeedItem × List (String × String)))
    (atomicOk : Bool) :
    ((runMain sha1hex post max_per_run seen meta0 results).saved_seen = true ↔
      (runMain sha1hex post max_per_run seen meta0 results).new_seen ≠ seen) ∧
    ((runMain sha1hex post max_per_run seen meta0 results).saved_seen = true ↔
      ∃ k, k ∈ (runMain sha1hex post max_per_run seen meta0 results).new_seen ∧ k ∉ seen) ∧
    (save_seen atomicOk
        (runMain sha1hex post max_per_run seen meta0 results).new_seen).content =
      saveSeenLines (runMain sha1hex post max_per_run seen meta0 results).new_seen ∧
    (save_seen false (runMain sha1hex post max_per_run seen meta0 results).new_seen).content =
      (save_seen true (runMain sha1hex post max_per_run seen meta0 results).new_seen).content ∧
    List.Sorted sLE
      (saveSeenLines (runMain sha1hex post max_per_run seen meta0 results).new_seen) ∧
    (saveSeenLines (runMain sha1hex post max_per_run seen meta0 results).new_seen).Nodup ∧
    (∀ k, k ∈ saveSeenLines (runMain sha1hex post max_per_run seen meta0 results).new_seen ↔
      k ∈ (runMain sha1hex post max_per_run seen meta0 results).new_seen) := by
  have hunion := runMain_new_seen_union sha1hex post max_per_run seen meta0 results
  have hsub : seen ⊆ (runMain sha1hex post max_per_run seen meta0 results).new_seen := by
    rw [hunion]
    exact Finset.subset_union_left
  have hiff : (runMain sha1hex post max_per_run seen meta0 results).saved_seen = true ↔
      (runMain sha1hex post max_per_run seen meta0 results).new_seen ≠ seen := by
    rw [runMain_saved_seen_eq sha1hex post max_per_run seen meta0 results]
    simp only [Bool.and_eq_true, decide_eq_true_eq]
    constructor
    · exact fun h => h.2
    · intro hne
      refine ⟨?_, hne⟩
      rw [runMain_posted_len sha1hex post max_per_run seen meta0 results]
      by_contra hz
      have hnil : (runMain sha1hex post max_per_run seen meta0 results).posted_items = [] :=
        List.eq_nil_of_length_eq_zero (by omega)
      rw [hnil] at hunion
      simp only [List.map_nil, List.toFinset_nil, Finset.union_empty] at hunion
      exact hne hunion
  refine ⟨hiff, ?_, by cases atomicOk <;> rfl, ?_,
    Finset.sort_sorted sLE _, Finset.sort_nodup sLE _, ?_⟩
  · rw [hiff]
    constructor
    · intro hne
      by_contra hnone
      push_neg at hnone
      apply hne
      apply Finset.Subset.antisymm _ hsub
      intro k hk
      exact hnone k hk
    · rintro ⟨k, hk1, hk2⟩ heq
      rw [heq] at hk1
      exact hk2 hk1
  · unfold save_seen
    simp
  · intro k
    exact Finset.mem_sort sLE

/-- Claim C9 witness: a run that successfully posts one unseen item marks the
    store as changed and rewrites it. -/
theorem claim_C9_seen_store_write_witness :
    (runMain (fun s => s) (fun _ => true) 5 ∅ []
        [("u", [⟨"u", "i", "t", "l", none⟩], [])]).saved_seen = true := by
  exact (claim_C9_seen_store_write (fun s => s) (fun _ => true) 5 ∅ []
      [("u", [⟨"u", "i", "t", "l", none⟩], [])] true).1.mpr (by decide)

/-! Claim C6. -/

instance (sha1hex : String → String) : IsTotal FeedItem (itemGe sha1hex) := by
  constructor
  intro a b
  unfold itemGe
  rcases Int.lt_trichotomy (sort_key sha1hex a).1 (sort_key sha1hex b).1 with h | h | h
  · right; left; exact h
  · rcases charLexLe_total (sort_key sha1hex a).2.data (sort_key sha1hex b).2.data with hc | hc
    · right; right; exact ⟨h, hc⟩
    · left; right; exact ⟨h.symm, hc⟩
  · left; left; exact h

instance (sha1hex : String → String) : IsTrans FeedItem (itemGe sha1hex) := by
  constructor
  intro a b c hab hbc
  unfold itemGe at hab hbc ⊢
  rcases hab with h1 | ⟨h1, h1'⟩ <;> rcases hbc with h2 | ⟨h2, h2'⟩
  · left; omega
  · left; omega
  · left; omega
  · right; exact ⟨by omega, charLexLe_trans h2' h1'⟩

theorem publishLoop_take (sha1hex : String → String) (post : FeedItem → Bool)
    (seen : Finset String) (q : Nat) (hp : ∀ it, post it = true) :
    ∀ (l : List FeedItem) (ns : Finset String) (p : Nat),
      (publishLoop sha1hex post seen q l ns p).2.2 =
        (l.filter (fun it => decide (compute_seen_key sha1hex it ∉ seen))).take (q - p) := by
  intro l
  induction l with
  | nil => intro ns p; simp [publishLoop_nil]
  | cons x rest ih =>
    intro ns p
    rw [publishLoop_cons]
    by_cases hq : q ≤ p
    · rw [if_pos hq]
      have : q - p = 0 := by omega
      rw [this]
      simp
    · rw [if_neg hq]
      by_cases hseen : compute_seen_key sha1hex x ∈ seen
      · rw [if_pos hseen]
        rw [List.filter_cons_of_neg (by simpa using hseen)]
        exact ih ns p
      · rw [if_neg hseen, if_pos (hp x)]
        rw [List.filter_cons_of_pos (by simpa using hseen)]
        have hqp : q - p = (q - (p + 1)) + 1 := by omega
        rw [hqp, List.take_succ_cons]
        show x :: (publishLoop sha1hex post seen q rest
            (insert (compute_seen_key sha1hex x) ns) (p + 1)).2.2 =
          x :: (rest.filter
            (fun it => decide (compute_seen_key sha1hex it ∉ seen))).take (q - (p + 1))
        rw [ih (insert (compute_seen_key sha1hex x) ns) (p + 1)]

/-- Claim C6 counterexample: an item carrying the representable pre-epoch
    timestamp -1 sorts strictly below (older than) an item with no timestamp
    at all, so absent timestamps do not sort as oldest: the absent-timestamp
    item ends up first (newest) and the timestamped one last. -/
theorem claim_C6_counterexample :
    sortItems (fun s => s)
        [⟨"u", "a", "t", "l", some (-1)⟩, ⟨"u", "b", "t", "l", none⟩] =
      [⟨"u", "b", "t", "l", none⟩, ⟨"u", "a", "t", "l", some (-1)⟩] ∧
    (⟨"u", "b", "t", "l", none⟩ : FeedItem).published_ts = none ∧
    (⟨"u", "a", "t", "l", some (-1)⟩ : FeedItem).published_ts ≠ none := by
  refine ⟨by decide, rfl, by decide⟩

/-- Claim C6 (amended): the merged items are sorted descending by the pair
    `(published_ts or 0, SeenKey)` (so distinct timestamps appear strictly
    timestamp-descending and the key is a total, reproducible tie-break),
    with absent timestamps sorting as timestamp 0 — not necessarily as
    oldest, since parsed timestamps can be negative; the run walks this
    order skipping seen items, and with every item unseen, pairwise-distinct
    keys, all posts succeeding and at least Q items, exactly the Q greatest
    items under this order are posted and the store grows by exactly Q. -/
theorem claim_C6_order_quota (sha1hex : String → String) (seen : Finset String)
    (meta0 : MetaMap) (max_per_run : Nat)
    (results : List (String × List FeedItem × List (String × String)))
    (hnodup : ((results.flatMap (fun r => r.2.1)).map (compute_seen_key sha1hex)).Nodup)
    (hunseen : ∀ it ∈ results.flatMap (fun r => r.2.1),
      compute_seen_key sha1hex it ∉ seen)
    (hq : max_per_run ≤ (results.flatMap (fun r => r.2.1)).length) :
    List.Sorted (itemGe sha1hex) (sortItems sha1hex (results.flatMap (fun r => r.2.1))) ∧
    (sortItems sha1hex (results.flatMap (fun r => r.2.1))).Perm
      (results.flatMap (fun r => r.2.1)) ∧
    (∀ it : FeedItem, it.published_ts = none → (sort_key sha1hex it).1 = 0) ∧
    (runMain sha1hex (fun _ => true) max_per_run seen meta0 results).posted_items =
      (sortItems sha1hex (results.flatMap (fun r => r.2.1))).take max_per_run ∧
    (runMain sha1hex (fun _ => true) max_per_run seen meta0 results).posted = max_per_run ∧
    (runMain sha1hex (fun _ => true) max_per_run seen meta0 results).new_seen.card =
      seen.card + max_per_run := by
  have hperm : (sortItems sha1hex (results.flatMap (fun r => r.2.1))).Perm
      (results.flatMap (fun r => r.2.1)) :=
    List.perm_insertionSort (itemGe sha1hex) _
  have hpostedeq : (runMain sha1hex (fun _ => true) max_per_run seen meta0 results).posted_items =
      (sortItems sha1hex (results.flatMap (fun r => r.2.1))).take max_per_run := by
    by_cases hemp : results.flatMap (fun r => r.2.1) = []
    · rw [runMain_empty sha1hex (fun _ => true) max_per_run seen meta0 results hemp]
      have : sortItems sha1hex (results.flatMap (fun r => r.2.1)) = [] := by
        rw [hemp]; rfl
      rw [this]
      simp
    · rw [runMain_nonempty sha1hex (fun _ => true) max_per_run seen meta0 results hemp]
      show (publishLoop sha1hex (fun _ => true) seen max_per_run
          (sortItems sha1hex (results.flatMap (fun r => r.2.1))) seen 0).2.2 = _
      rw [publishLoop_take sha1hex (fun _ => true) seen max_per_run (fun _ => rfl)]
      have hfil : (sortItems sha1hex (results.flatMap (fun r => r.2.1))).filter
          (fun it => decide (compute_seen_key sha1hex it ∉ seen)) =
          sortItems sha1hex (results.flatMap (fun r => r.2.1)) := by
        rw [List.filter_eq_self]
        intro it hmem
        simpa using hunseen it (hperm.mem_iff.mp hmem)
      rw [hfil, Nat.sub_zero]
  have hlen : (sortItems sha1hex (results.flatMap (fun r => r.2.1))).length =
      (results.flatMap (fun r => r.2.1)).length := hperm.length_eq
  have hpostlen : (runMain sha1hex (fun _ => true) max_per_run seen meta0 results).posted_items.length
      = max_per_run := by
    rw [hpostedeq, List.length_take, hlen]
    omega
  refine ⟨List.sorted_insertionSort (itemGe sha1hex) _, hperm, ?_, hpostedeq, ?_, ?_⟩
  · intro it h
    simp [sort_key, h]
  · rw [runMain_posted_len, hpostlen]
  · have hkeys_nodup : ((runMain sha1hex (fun _ => true) max_per_run seen meta0
        results).posted_items.map (compute_seen_key sha1hex)).Nodup := by
      rw [hpostedeq]
      have hsub : ((sortItems sha1hex (results.flatMap (fun r => r.2.1))).take
          max_per_run).Sublist (sortItems sha1hex (results.flatMap (fun r => r.2.1))) :=
        List.take_sublist _ _
      have hsorted_nodup : ((sortItems sha1hex (results.flatMap (fun r => r.2.1))).map
          (compute_seen_key sha1hex)).Nodup :=
        (hperm.map (compute_seen_key sha1hex)).nodup_iff.mpr hnodup
      exact hsorted_nodup.sublist (hsub.map (compute_seen_key sha1hex))
    have hdisj : Disjoint seen
        (((runMain sha1hex (fun _ => true) max_per_run seen meta0
          results).posted_items.map (compute_seen_key sha1hex)).toFinset) := by
      rw [Finset.disjoint_right]
      intro k hk
      simp only [List.mem_toFinset, List.mem_map] at hk
      rcases hk with ⟨it, hit, rfl⟩
      exact (runMain_posted_items_spec sha1hex (fun _ => true) max_per_run seen meta0
        results it hit).2.2
    rw [runMain_new_seen_union sha1hex (fun _ => true) max_per_run seen meta0 results,
      Finset.card_union_of_disjoint hdisj, List.toFinset_card_of_nodup hkeys_nodup,
      List.length_map, hpostlen]

/-- Claim C6 witness: two unseen items with distinct keys and timestamps 5
    and 3 under quota 1 produce exactly one post. -/
theorem claim_C6_order_quota_witness :
    (runMain (fun s => s) (fun _ => true) 1 ∅ []
        [("u", [⟨"u", "a", "t", "l", some 5⟩, ⟨"u", "b", "t", "l", some 3⟩], [])]).posted
      = 1 := by
  exact (claim_C6_order_quota (fun s => s) ∅ [] 1
      [("u", [⟨"u", "a", "t", "l", some 5⟩, ⟨"u", "b", "t", "l", some 3⟩], [])]
      (by decide) (by decide) (by decide)).2.2.2.2.1

/-! Claim C8. -/

/-- Claim C8: `parse_feed` is a total function into item lists — malformed
    XML (a failed `ET.fromstring`) yields the empty list, and every produced
    item's timestamp is either absent or the result of date-parsing a
    nonempty date string from the entry (ISO-8601 for Atom, RFC-2822 for
    RSS), never any other default; every item also carries the feed URL. -/
theorem claim_C8_parser_totality (iso rfc : String → Option Int) (url : String)
    (doc : Option XmlElem) :
    (parse_feed iso rfc url none = []) ∧
    (∀ it ∈ parse_feed iso rfc url doc,
      it.published_ts = none ∨
        ∃ s, s ≠ "" ∧ (it.published_ts = parse_iso8601_date iso s ∨
          it.published_ts = parse_rfc2822_date rfc s)) ∧
    (∀ it ∈ parse_feed iso rfc url doc, it.feed_url = url) := by
  refine ⟨rfl, ?_, ?_⟩
  · intro it hmem
    cases doc with
    | none => simp [parse_feed] at hmem
    | some root =>
      simp only [parse_feed] at hmem
      split at hmem
      · rcases List.mem_map.mp hmem with ⟨e, _, rfl⟩
        by_cases h : pstrip (pyOrS (e.findtext (atomNs ++ "published"))
            (pyOrS (e.findtext (atomNs ++ "updated")) "")) = ""
        · left; simp [h]
        · exact Or.inr ⟨_, h, Or.inl (by simp [h])⟩
      · rcases List.mem_map.mp hmem with ⟨e, _, rfl⟩
        by_cases h : pstrip (textOrEmpty (e.findtext "pubDate")) = ""
        · left; simp [h]
        · exact Or.inr ⟨_, h, Or.inr (by simp [h])⟩
  · intro it hmem
    cases doc with
    | none => simp [parse_feed] at hmem
    | some root =>
      simp only [parse_feed] at hmem
      split at hmem <;>
        · rcases List.mem_map.mp hmem with ⟨e, _, rfl⟩
          rfl

/-- Claim C8 witness: malformed XML parses to no items, and the item of a
    concrete Atom entry without `published` or `updated` has an absent
    timestamp even though both date oracles always succeed. -/
theorem claim_C8_parser_totality_witness :
    (parse_feed (fun _ => some 7) (fun _ => some 8) "u" none = []) ∧
    ((⟨"u", "T", "T", "", none⟩ : FeedItem).published_ts = none ∨
      ∃ s, s ≠ "" ∧
        ((⟨"u", "T", "T", "", none⟩ : FeedItem).published_ts =
            parse_iso8601_date (fun _ => some 7) s ∨
          (⟨"u", "T", "T", "", none⟩ : FeedItem).published_ts =
            parse_rfc2822_date (fun _ => some 8) s)) := by
  refine ⟨(claim_C8_parser_totality (fun _ => some 7) (fun _ => some 8) "u" none).1, ?_⟩
  exact (claim_C8_parser_totality (fun _ => some 7) (fun _ => some 8) "u"
      (some (XmlElem.mk (atomNs ++ "feed") [] none
        [XmlElem.mk (atomNs ++ "entry") [] none
          [XmlElem.mk (atomNs ++ "title") [] (some "T") []]]))).2.1
    ⟨"u", "T", "T", "", none⟩ (by decide)

/-! Claim C1. -/

theorem le_foldr_max_of_mem {x b : ℚ} {l : List ℚ} (h : x ∈ l) : x ≤ l.foldr max b := by
  induction l with
  | nil => simp at h
  | cons y ys ih =>
    rcases List.mem_cons.mp h with rfl | h
    · exact le_max_left _ _
    · exact le_trans (ih h) (le_max_right _ _)

theorem base_le_foldr_max (b : ℚ) (l : List ℚ) : b ≤ l.foldr max b := by
  induction l with
  | nil => exact le_refl b
  | cons y ys ih => exact le_trans ih (le_max_right _ _)

theorem foldr_max_le {b c : ℚ} {l : List ℚ} (hb : b ≤ c) (h : ∀ x ∈ l, x ≤ c) :
    l.foldr max b ≤ c := by
  induction l with
  | nil => exact hb
  | cons y ys ih =>
    exact max_le (h y (List.mem_cons_self _ _)) (ih (fun x hx => h x (List.mem_cons_of_mem _ hx)))

/-- Claim C1 counterexample: 20 feeds, concurrency ceiling 4, fetch budget 1,
    every fetch taking 1000 time units. The timed wait does return at the
    budget and every feed is skipped, but the fetch phase (the executor
    shutdown joining the four already-started workers) ends at time 1000,
    which is not the budget plus bounded overhead. -/
theorem claim_C1_counterexample :
    (fetchPhase 4 1 (List.replicate 20 ⟨"u", 1000, ([], [])⟩)).waitReturn = 1 ∧
    (fetchPhase 4 1 (List.replicate 20 ⟨"u", 1000, ([], [])⟩)).phaseEnd = 1000 ∧
    ¬ (fetchPhase 4 1 (List.replicate 20 ⟨"u", 1000, ([], [])⟩)).phaseEnd ≤ 1 + 100 ∧
    (fetchPhase 4 1 (List.replicate 20 ⟨"u", 1000, ([], [])⟩)).skippedUrls.length = 20 ∧
    (fetchPhase 4 1 (List.replicate 20 ⟨"u", 1000, ([], [])⟩)).doneResults = [] := by
  refine ⟨?_, ?_, ?_, ?_, ?_⟩ <;>
    · norm_num [fetchPhase, poolTimes, poolSchedule, popMin, List.replicate, max_def]
      try decide

/-- Claim C1 (amended): the timed wait itself returns after at most the
    budget D; the run incorporates exactly the results of fetches finished
    by D; one skip is recorded per unfinished fetch (feed URLs being
    nonempty); but the fetch phase as a whole ends only when every
    already-started fetch has finished — `ThreadPoolExecutor` shutdown joins
    running workers — so the phase end can exceed D by the remaining running
    time of in-flight fetches rather than by bounded overhead. -/
theorem claim_C1_fetch_budget (c : Nat) (budget : ℚ) (tasks : List TimedFetch)
    (hb : 0 ≤ budget) (hurl : ∀ t ∈ tasks, t.url ≠ "") :
    ((fetchPhase c budget tasks).waitReturn ≤ budget) ∧
    ((fetchPhase c budget tasks).doneResults =
      ((tasks.zip (poolTimes c (tasks.map (fun t => t.dur)))).filter
        (fun p => decide (p.2.2 ≤ budget))).map
          (fun p => (p.1.url, p.1.result.1, p.1.result.2))) ∧
    ((fetchPhase c budget tasks).skippedUrls =
      ((tasks.zip (poolTimes c (tasks.map (fun t => t.dur)))).filter
        (fun p => decide (budget < p.2.2))).map (fun p => p.1.url)) ∧
    (∀ p ∈ tasks.zip (poolTimes c (tasks.map (fun t => t.dur))),
      budget < p.2.2 → p.1.url ∈ (fetchPhase c budget tasks).skippedUrls) ∧
    (∀ p ∈ tasks.zip (poolTimes c (tasks.map (fun t => t.dur))),
      p.2.1 ≤ budget → budget < p.2.2 →
        p.2.2 ≤ (fetchPhase c budget tasks).phaseEnd) ∧
    ((fetchPhase c budget tasks).waitReturn ≤ (fetchPhase c budget tasks).phaseEnd) := by
  refine ⟨?_, rfl, ?_, ?_, ?_, ?_⟩
  · show (if ((tasks.zip (poolTimes c (tasks.map (fun t => t.dur)))).filter
        (fun p => decide (budget < p.2.2))).isEmpty then
        ((tasks.zip (poolTimes c (tasks.map (fun t => t.dur)))).map
          (fun p => p.2.2)).foldr max 0
      else budget) ≤ budget
    split
    · next hemp =>
      apply foldr_max_le hb
      intro x hx
      rcases List.mem_map.mp hx with ⟨p, hp, rfl⟩
      by_contra hgt
      have hmem : p ∈ (tasks.zip (poolTimes c (tasks.map (fun t => t.dur)))).filter
          (fun p => decide (budget < p.2.2)) :=
        List.mem_filter.mpr ⟨hp, by simpa using lt_of_not_le hgt⟩
      rw [List.isEmpty_iff.mp hemp] at hmem
      simp at hmem
    · exact le_refl budget
  · show ((( tasks.zip (poolTimes c (tasks.map (fun t => t.dur)))).filter
        (fun p => decide (budget < p.2.2))).map (fun p => p.1.url)).filter
        (fun u => decide (u ≠ "")) = _
    rw [List.filter_eq_self]
    intro u hu
    rcases List.mem_map.mp hu with ⟨p, hp, rfl⟩
    have hpt : p.1 ∈ tasks := (List.of_mem_zip (List.mem_filter.mp hp).1).1
    simpa using hurl p.1 hpt
  · intro p hp hlate
    show p.1.url ∈ (((tasks.zip (poolTimes c (tasks.map (fun t => t.dur)))).filter
        (fun p => decide (budget < p.2.2))).map (fun p => p.1.url)).filter
        (fun u => decide (u ≠ ""))
    apply List.mem_filter.mpr
    refine ⟨List.mem_map.mpr ⟨p, List.mem_filter.mpr ⟨hp, by simpa using hlate⟩, rfl⟩, ?_⟩
    have hpt : p.1 ∈ tasks := (List.of_mem_zip hp).1
    simpa using hurl p.1 hpt
  · intro p hp hstart hlate
    apply le_foldr_max_of_mem
    apply List.mem_map.mpr
    refine ⟨p, ?_, rfl⟩
    exact List.mem_filter.mpr
      ⟨List.mem_filter.mpr ⟨hp, by simpa using hlate⟩, by simpa using hstart⟩
  · exact base_le_foldr_max _ _

/-- Claim C1 witness: two feeds under budget 1, one taking 5 and one taking
    1 time unit: only the slow feed is skipped. -/
theorem claim_C1_fetch_budget_witness :
    (fetchPhase 2 1 [⟨"a", 5, ([], [])⟩, ⟨"b", 1, ([], [])⟩]).skippedUrls = ["a"] := by
  refine (claim_C1_fetch_budget 2 1 [⟨"a", 5, ([], [])⟩, ⟨"b", 1, ([], [])⟩]
      (by norm_num) (by decide)).2.2.1.trans ?_
  norm_num [poolTimes, poolSchedule, popMin]

/-! Claim C10: lemma kit for the URL model. -/

theorem splitOnFirst_not_mem {c : Char} {l : List Char} (h : c ∉ l) :
    splitOnFirst c l = (l, none) := by
  induction l with
  | nil => rfl
  | cons x xs ih =>
    have hx : x ≠ c := fun hc => h (hc ▸ List.mem_cons_self _ _)
    have hxs : c ∉ xs := fun hc => h (List.mem_cons_of_mem _ hc)
    simp [splitOnFirst, hx, ih hxs]

theorem splitOnFirst_append {c : Char} {xs : List Char} (h : c ∉ xs) (ys : List Char) :
    splitOnFirst c (xs ++ c :: ys) = (xs, some ys) := by
  induction xs with
  | nil => simp [splitOnFirst]
  | cons x rest ih =>
    have hx : x ≠ c := fun hc => h (hc ▸ List.mem_cons_self _ _)
    have hrest : c ∉ rest := fun hc => h (List.mem_cons_of_mem _ hc)
    simp [splitOnFirst, hx, ih hrest]

theorem splitOnFirst_cases (c : Char) (l : List Char) :
    (splitOnFirst c l = (l, none) ∧ c ∉ l) ∨
      ∃ a b, splitOnFirst c l = (a, some b) ∧ l = a ++ c :: b ∧ c ∉ a := by
  induction l with
  | nil => left; exact ⟨rfl, by simp⟩
  | cons x xs ih =>
    by_cases hx : x = c
    · subst hx
      right
      exact ⟨[], xs, by simp [splitOnFirst], by simp, by simp⟩
    · rcases ih with ⟨h1, h2⟩ | ⟨a, b, h1, h2, h3⟩
      · left
        refine ⟨by simp [splitOnFirst, hx, h1], ?_⟩
        intro hmem
        rcases List.mem_cons.mp hmem with h' | h'
        · exact hx h'.symm
        · exact h2 h'
      · right
        refine ⟨x :: a, b, by simp [splitOnFirst, hx, h1], by simp [h2], ?_⟩
        intro hmem
        rcases List.mem_cons.mp hmem with h' | h'
        · exact hx h'.symm
        · exact h3 h'

theorem splitOnFirst_eq_some {c : Char} {l a b : List Char}
    (h : splitOnFirst c l = (a, some b)) : l = a ++ c :: b ∧ c ∉ a := by
  rcases splitOnFirst_cases c l with ⟨h1, _⟩ | ⟨a', b', h1, h2, h3⟩
  · rw [h1, Prod.mk.injEq] at h
    exact absurd h.2 (by simp)
  · rw [h1, Prod.mk.injEq] at h
    obtain ⟨rfl, h4⟩ := h
    obtain rfl := Option.some.inj h4
    exact ⟨h2, h3⟩

theorem splitOnFirst_eq_none {c : Char} {l a : List Char}
    (h : splitOnFirst c l = (a, none)) : a = l ∧ c ∉ l := by
  rcases splitOnFirst_cases c l with ⟨h1, h2⟩ | ⟨a', b', h1, h2, h3⟩
  · rw [h1, Prod.mk.injEq] at h
    exact ⟨h.1.symm, h2⟩
  · rw [h1, Prod.mk.injEq] at h
    exact absurd h.2 (by simp)

theorem splitOnLast_not_mem {c : Char} {l : List Char} (h : c ∉ l) :
    splitOnLast c l = (l, none) := by
  unfold splitOnLast
  rw [splitOnFirst_not_mem (by simpa using h)]

theorem splitOnLast_append {c : Char} {a b : List Char} (h : c ∉ b) :
    splitOnLast c (a ++ c :: b) = (a, some b) := by
  unfold splitOnLast
  have : (a ++ c :: b).reverse = b.reverse ++ c :: a.reverse := by
    simp
  rw [this, splitOnFirst_append (by simpa using h)]
  simp

theorem splitOnLast_eq_some {c : Char} {l a b : List Char}
    (h : splitOnLast c l = (a, some b)) : l = a ++ c :: b ∧ c ∉ b := by
  unfold splitOnLast at h
  rcases splitOnFirst_cases c l.reverse with ⟨h1, _⟩ | ⟨a', b', h1, h2, h3⟩
  · rw [h1] at h
    simp at h
  · rw [h1] at h
    simp only [Prod.mk.injEq] at h
    obtain ⟨rfl, h4⟩ := h
    obtain rfl := Option.some.inj h4
    have hl : l = b'.reverse ++ c :: a'.reverse := by
      have := congrArg List.reverse h2
      simpa using this
    refine ⟨hl, ?_⟩
    intro hmem
    exact h3 (by simpa using List.mem_reverse.mpr hmem)

theorem splitOnLast_mem {c : Char} {l : List Char} (h : c ∈ l) :
    ∃ a b, splitOnLast c l = (a, some b) ∧ l = a ++ c :: b ∧ c ∉ b := by
  unfold splitOnLast
  rcases splitOnFirst_cases c l.reverse with ⟨h1, h2⟩ | ⟨a', b', h1, h2, h3⟩
  · exact absurd (List.mem_reverse.mpr h) h2
  · refine ⟨b'.reverse, a'.reverse, by rw [h1], ?_, ?_⟩
    · have := congrArg List.reverse h2
      simpa using this
    · intro hmem
      exact h3 (by simpa using hmem)

theorem splitOnLast_append_left {c : Char} {a bef seg : List Char} (suf : List Char)
    (hsuf : c ∉ suf) (h : splitOnLast c a = (bef, some seg)) :
    splitOnLast c (a ++ suf) = (bef, some (seg ++ suf)) := by
  rcases splitOnLast_eq_some h with ⟨rfl, hseg⟩
  have : bef ++ c :: seg ++ suf = bef ++ c :: (seg ++ suf) := by simp
  rw [this, splitOnLast_append (by simp [hseg, hsuf])]

theorem listStarts_refl_append (pre rest : List Char) :
    listStarts pre (pre ++ rest) = true := by
  induction pre with
  | nil => rfl
  | cons x xs ih => simp [listStarts, ih]

theorem listEnds_append (a suf : List Char) : listEnds suf (a ++ suf) = true := by
  unfold listEnds
  rw [List.reverse_append]
  exact listStarts_refl_append suf.reverse a.reverse

theorem takeWhile_all {p : Char → Bool} {l : List Char} (h : ∀ x ∈ l, p x = true) :
    l.takeWhile p = l := by
  induction l with
  | nil => rfl
  | cons x xs ih =>
    rw [List.takeWhile_cons, if_pos (h x (List.mem_cons_self _ _))]
    rw [ih (fun x hx => h x (List.mem_cons_of_mem _ hx))]

theorem dropWhile_all {p : Char → Bool} {l : List Char} (h : ∀ x ∈ l, p x = true) :
    l.dropWhile p = [] := by
  induction l with
  | nil => rfl
  | cons x xs ih =>
    rw [List.dropWhile_cons, if_pos (h x (List.mem_cons_self _ _))]
    exact ih (fun x hx => h x (List.mem_cons_of_mem _ hx))

theorem takeWhile_append_stop {p : Char → Bool} {a : List Char} (ha : ∀ x ∈ a, p x = true)
    {c : Char} (hc : p c = false) (r : List Char) :
    (a ++ c :: r).takeWhile p = a ∧ (a ++ c :: r).dropWhile p = c :: r := by
  induction a with
  | nil => simp [List.takeWhile_cons, List.dropWhile_cons, hc]
  | cons x xs ih =>
    have hx : p x = true := ha x (List.mem_cons_self _ _)
    have hxs : ∀ y ∈ xs, p y = true := fun y hy => ha y (List.mem_cons_of_mem _ hy)
    rcases ih hxs with ⟨h1, h2⟩
    constructor
    · simp [List.takeWhile_cons, hx, h1]
    · simp [List.dropWhile_cons, hx, h2]

theorem contains_of_mem {c : Char} {l : List Char} (h : c ∈ l) : l.contains c = true := by
  induction l with
  | nil => simp at h
  | cons x xs ih =>
    rcases List.mem_cons.mp h with rfl | h'
    · simp [List.contains_cons]
    · simp only [List.contains_cons, ih h', Bool.or_true]

theorem contains_eq_false {c : Char} {l : List Char} (h : c ∉ l) : l.contains c = false := by
  induction l with
  | nil => rfl
  | cons x xs ih =>
    have hx : ¬ (c = x) := fun hc => h (hc ▸ List.mem_cons_self _ _)
    have hxs : c ∉ xs := fun hc => h (List.mem_cons_of_mem _ hc)
    simp only [List.contains_cons, ih hxs, Bool.or_false, beq_eq_false_iff_ne, ne_eq]
    exact hx

theorem mem_takeWhile_pred {p : Char → Bool} {l : List Char} {x : Char}
    (h : x ∈ l.takeWhile p) : p x = true := by
  induction l with
  | nil => simp at h
  | cons y ys ih =>
    rw [List.takeWhile_cons] at h
    split at h
    · rcases List.mem_cons.mp h with rfl | h'
      · assumption
      · exact ih h'
    · simp at h

theorem dropWhile_head_false {p : Char → Bool} {l : List Char} {c : Char} {r : List Char}
    (h : l.dropWhile p = c :: r) : p c = false := by
  induction l with
  | nil => simp at h
  | cons x xs ih =>
    rw [List.dropWhile_cons] at h
    split at h
    · exact ih h
    · next hx =>
      obtain ⟨rfl, rfl⟩ := List.cons.inj h
      simpa using hx

theorem head?_append_of_ne_nil {a rest : List Char} (h : a ≠ []) :
    (a ++ rest).head? = a.head? := by
  cases a with
  | nil => exact absurd rfl h
  | cons x xs => simp

theorem cleanL_nil : cleanL [] := by intro x hx; simp at hx

theorem cleanL_cons {c : Char} {a : List Char} (hc : unsafeUrlChar c = false)
    (ha : cleanL a) : cleanL (c :: a) := by
  intro x hx
  rcases List.mem_cons.mp hx with rfl | hx'
  · exact hc
  · exact ha x hx'

theorem cleanL_append {a b : List Char} (ha : cleanL a) (hb : cleanL b) :
    cleanL (a ++ b) := by
  intro x hx
  rcases List.mem_append.mp hx with h' | h'
  · exact ha x h'
  · exact hb x h'

theorem cleanL_of_subset {a b : List Char} (hsub : ∀ x ∈ a, x ∈ b) (hb : cleanL b) :
    cleanL a := fun x hx => hb x (hsub x hx)

theorem sanitizeUrl_clean (l : List Char) : cleanL (sanitizeUrl l) := by
  intro x hx
  have := List.of_mem_filter hx
  simpa using this

theorem sanitizeUrl_eq_self {c : Char} {r : List Char} (hc : ¬ c.toNat ≤ 32)
    (hclean : cleanL (c :: r)) : sanitizeUrl (c :: r) = c :: r := by
  unfold sanitizeUrl
  rw [List.dropWhile_cons, if_neg (by simpa using hc)]
  rw [List.filter_eq_self]
  intro a ha
  simpa using hclean a ha

theorem splitScheme_http (rest : List Char) :
    splitScheme (httpChars ++ ':' :: rest) = (httpChars, rest) := by
  unfold splitScheme
  rw [splitOnFirst_append (by decide) rest]
  rfl

theorem splitScheme_https (rest : List Char) :
    splitScheme (httpsChars ++ ':' :: rest) = (httpsChars, rest) := by
  unfold splitScheme
  rw [splitOnFirst_append (by decide) rest]
  rfl

theorem splitScheme_snd_subset (url : List Char) :
    ∀ x ∈ (splitScheme url).2, x ∈ url := by
  unfold splitScheme
  rcases splitOnFirst_cases ':' url with ⟨h1, _⟩ | ⟨a, b, h1, h2, _⟩
  · rw [h1]; intro x hx; exact hx
  · rw [h1]
    cases a with
    | nil => intro x hx; exact hx
    | cons c0 arest =>
      by_cases hcond : (c0.isAlpha && arest.all schemeChar) = true
      · simp only [hcond, if_true]
        intro x hx
        rw [h2]
        exact List.mem_append.mpr (Or.inr (List.mem_cons_of_mem _ hx))
      · simp only [hcond, if_false]
        intro x hx; exact hx

theorem splitNetloc_fst_nodelim (rest : List Char) :
    ∀ x ∈ (splitNetloc rest).1, netlocDelim x = false := by
  unfold splitNetloc
  split
  · intro x hx
    have := mem_takeWhile_pred hx
    simpa using this
  · intro x hx; simp at hx

theorem splitNetloc_shape (rest : List Char) :
    ((splitNetloc rest).1 = [] ∧ (splitNetloc rest).2 = rest) ∨
      ∃ r, rest = '/' :: '/' :: r ∧
        (splitNetloc rest).1 = r.takeWhile (fun c => ! netlocDelim c) ∧
        (splitNetloc rest).2 = r.dropWhile (fun c => ! netlocDelim c) := by
  unfold splitNetloc
  split
  · next r => exact Or.inr ⟨r, rfl, rfl, rfl⟩
  · exact Or.inl ⟨rfl, rfl⟩

theorem splitNetloc_cons {nl : List Char} (hnl : ∀ x ∈ nl, netlocDelim x = false)
    {c : Char} (hc : netlocDelim c = true) (r : List Char) :
    splitNetloc ('/' :: '/' :: (nl ++ c :: r)) = (nl, c :: r) := by
  unfold splitNetloc
  rcases takeWhile_append_stop (p := fun c => ! netlocDelim c) (a := nl) (c := c)
    (fun x hx => by simp [hnl x hx]) (by simp [hc]) r with ⟨h1, h2⟩
  simp only [h1, h2]

theorem splitFragment_parts (url : List Char) :
    ((splitFragment url).1 = url ∧ (splitFragment url).2 = [] ∧ '#' ∉ url) ∨
      (url = (splitFragment url).1 ++ '#' :: (splitFragment url).2 ∧
        '#' ∉ (splitFragment url).1) := by
  unfold splitFragment
  rcases splitOnFirst_cases '#' url with ⟨h1, h2⟩ | ⟨a, b, h1, h2, h3⟩
  · rw [h1]; exact Or.inl ⟨rfl, rfl, h2⟩
  · rw [h1]; exact Or.inr ⟨h2, h3⟩

theorem splitQuery_parts (url : List Char) :
    ((splitQuery url).1 = url ∧ (splitQuery url).2 = [] ∧ '?' ∉ url) ∨
      (url = (splitQuery url).1 ++ '?' :: (splitQuery url).2 ∧
        '?' ∉ (splitQuery url).1) := by
  unfold splitQuery
  rcases splitOnFirst_cases '?' url with ⟨h1, h2⟩ | ⟨a, b, h1, h2, h3⟩
  · rw [h1]; exact Or.inl ⟨rfl, rfl, h2⟩
  · rw [h1]; exact Or.inr ⟨h2, h3⟩

theorem splitFragment_append (u fr : List Char) (h : '#' ∉ u) :
    splitFragment (u ++ (if fr = [] then [] else '#' :: fr)) = (u, fr) := by
  by_cases hfr : fr = []
  · subst hfr
    rw [if_pos rfl, List.append_nil]
    unfold splitFragment
    rw [splitOnFirst_not_mem h]
  · rw [if_neg hfr]
    unfold splitFragment
    rw [splitOnFirst_append h]

theorem splitQuery_append (u q : List Char) (h : '?' ∉ u) :
    splitQuery (u ++ (if q = [] then [] else '?' :: q)) = (u, q) := by
  by_cases hq : q = []
  · subst hq
    rw [if_pos rfl, List.append_nil]
    unfold splitQuery
    rw [splitOnFirst_not_mem h]
  · rw [if_neg hq]
    unfold splitQuery
    rw [splitOnFirst_append h]

theorem lastSegNoSemi_of_not_mem {l : List Char} (h : ';' ∉ l) : lastSegNoSemi l := by
  unfold lastSegNoSemi
  rcases hsl : splitOnLast '/' l with ⟨bef, o⟩
  cases o with
  | none => exact h
  | some seg =>
    rcases splitOnLast_eq_some hsl with ⟨rfl, _⟩
    intro hmem
    exact h (List.mem_append.mpr (Or.inr (List.mem_cons_of_mem _ hmem)))

theorem splitParams_spec (url : List Char) :
    (∀ x ∈ (splitParams url).1, x ∈ url) ∧ (∀ x ∈ (splitParams url).2, x ∈ url) ∧
    '/' ∉ (splitParams url).2 ∧
    ((splitParams url).1 ≠ [] → (splitParams url).1.head? = url.head?) ∧
    lastSegNoSemi (splitParams url).1 := by
  unfold splitParams
  by_cases hc : url.contains '/' = true
  · have hmem : '/' ∈ url := by
      by_contra hno
      rw [contains_eq_false hno] at hc
      exact Bool.false_ne_true hc
    rcases splitOnLast_mem hmem with ⟨bef, seg, hsl, hdec, hni⟩
    rw [if_pos hc, hsl]
    dsimp only
    rcases splitOnFirst_cases ';' seg with ⟨h1, h2⟩ | ⟨a, b, h1, h2, h3⟩
    · rw [h1]
      dsimp only
      refine ⟨fun x hx => hx, fun x hx => by simp at hx, by simp, fun _ => rfl, ?_⟩
      unfold lastSegNoSemi
      rw [hsl]
      exact h2
    · rw [h1]
      dsimp only
      have hna : '/' ∉ a := by
        intro hmem2
        apply hni
        rw [h2]
        exact List.mem_append.mpr (Or.inl hmem2)
      refine ⟨?_, ?_, ?_, ?_, ?_⟩
      · intro x hx
        rw [hdec, h2]
        rcases List.mem_append.mp hx with h' | h'
        · exact List.mem_append.mpr (Or.inl h')
        · rcases List.mem_cons.mp h' with rfl | h''
          · exact List.mem_append.mpr (Or.inr (List.mem_cons_self _ _))
          · exact List.mem_append.mpr
              (Or.inr (List.mem_cons_of_mem _ (List.mem_append.mpr (Or.inl h''))))
      · intro x hx
        rw [hdec, h2]
        exact List.mem_append.mpr (Or.inr (List.mem_cons_of_mem _
          (List.mem_append.mpr (Or.inr (List.mem_cons_of_mem _ hx)))))
      · intro hmem2
        apply hni
        rw [h2]
        exact List.mem_append.mpr (Or.inr (List.mem_cons_of_mem _ hmem2))
      · intro _
        rw [hdec]
        cases bef with
        | nil => simp
        | cons y ys => simp
      · unfold lastSegNoSemi
        rw [splitOnLast_append hna]
        exact h3
  · rw [if_neg hc]
    have hns : '/' ∉ url := by
      intro hmem
      exact hc (contains_of_mem hmem)
    rcases splitOnFirst_cases ';' url with ⟨h1, h2⟩ | ⟨a, b, h1, h2, h3⟩
    · rw [h1]
      dsimp only
      exact ⟨fun x hx => hx, fun x hx => by simp at hx, by simp, fun _ => rfl,
        lastSegNoSemi_of_not_mem h2⟩
    · rw [h1]
      dsimp only
      refine ⟨?_, ?_, ?_, ?_, lastSegNoSemi_of_not_mem h3⟩
      · intro x hx
        rw [h2]
        exact List.mem_append.mpr (Or.inl hx)
      · intro x hx
        rw [h2]
        exact List.mem_append.mpr (Or.inr (List.mem_cons_of_mem _ hx))
      · intro hmem2
        exact hns (h2 ▸ List.mem_append.mpr (Or.inr (List.mem_cons_of_mem _ hmem2)))
      · intro hne
        rw [h2]
        exact (head?_append_of_ne_nil hne).symm

theorem splitNetloc_fst_subset (rest : List Char) :
    ∀ x ∈ (splitNetloc rest).1, x ∈ rest := by
  rcases splitNetloc_shape rest with ⟨h1, _⟩ | ⟨r, hr, h1, h2⟩
  · rw [h1]; intro x hx; simp at hx
  · rw [h1, hr]
    intro x hx
    have : x ∈ r := (List.takeWhile_sublist _).subset hx
    exact List.mem_cons_of_mem _ (List.mem_cons_of_mem _ this)

theorem splitNetloc_snd_subset (rest : List Char) :
    ∀ x ∈ (splitNetloc rest).2, x ∈ rest := by
  rcases splitNetloc_shape rest with ⟨_, h1⟩ | ⟨r, hr, h1, h2⟩
  · rw [h1]; intro x hx; exact hx
  · rw [h2, hr]
    intro x hx
    have : x ∈ r := (List.dropWhile_sublist _).subset hx
    exact List.mem_cons_of_mem _ (List.mem_cons_of_mem _ this)

theorem splitFragment_fst_subset (url : List Char) :
    ∀ x ∈ (splitFragment url).1, x ∈ url := by
  rcases splitFragment_parts url with ⟨h1, _, _⟩ | ⟨h1, _⟩
  · rw [h1]; intro x hx; exact hx
  · intro x hx
    rw [h1]
    exact List.mem_append.mpr (Or.inl hx)

theorem splitFragment_snd_subset (url : List Char) :
    ∀ x ∈ (splitFragment url).2, x ∈ url := by
  rcases splitFragment_parts url with ⟨_, h1, _⟩ | ⟨h1, _⟩
  · rw [h1]; intro x hx; simp at hx
  · intro x hx
    rw [h1]
    exact List.mem_append.mpr (Or.inr (List.mem_cons_of_mem _ hx))

theorem splitQuery_fst_subset (url : List Char) :
    ∀ x ∈ (splitQuery url).1, x ∈ url := by
  rcases splitQuery_parts url with ⟨h1, _, _⟩ | ⟨h1, _⟩
  · rw [h1]; intro x hx; exact hx
  · intro x hx
    rw [h1]
    exact List.mem_append.mpr (Or.inl hx)

theorem splitQuery_snd_subset (url : List Char) :
    ∀ x ∈ (splitQuery url).2, x ∈ url := by
  rcases splitQuery_parts url with ⟨_, h1, _⟩ | ⟨h1, _⟩
  · rw [h1]; intro x hx; simp at hx
  · intro x hx
    rw [h1]
    exact List.mem_append.mpr (Or.inr (List.mem_cons_of_mem _ hx))

theorem splitQuery_head? (url : List Char) (hne : (splitQuery url).1 ≠ []) :
    (splitQuery url).1.head? = url.head? := by
  rcases splitQuery_parts url with ⟨h1, _, _⟩ | ⟨h1, _⟩
  · rw [h1]
  · conv_rhs => rw [h1]
    exact (head?_append_of_ne_nil hne).symm

theorem splitFragment_head? (url : List Char) (hne : (splitFragment url).1 ≠ []) :
    (splitFragment url).1.head? = url.head? := by
  rcases splitFragment_parts url with ⟨h1, _, _⟩ | ⟨h1, _⟩
  · rw [h1]
  · conv_rhs => rw [h1]
    exact (head?_append_of_ne_nil hne).symm

theorem path_head_slash {S2 : List Char} (hnl : (splitNetloc S2).1 ≠ [])
    {pth : List Char} (hpne : pth ≠ [])
    (hhead : pth.head? = (splitNetloc S2).2.head?)
    (hnoHash : '#' ∉ pth) (hnoQ : '?' ∉ pth) :
    ∃ t, pth = '/' :: t := by
  rcases splitNetloc_shape S2 with ⟨h1, _⟩ | ⟨r, hr, h1, h2⟩
  · exact absurd h1 hnl
  · cases pth with
    | nil => exact absurd rfl hpne
    | cons c t =>
      rw [h2] at hhead
      cases hdp : r.dropWhile (fun c => ! netlocDelim c) with
      | nil => rw [hdp] at hhead; simp at hhead
      | cons c2 r2 =>
        rw [hdp] at hhead
        simp only [List.head?_cons, Option.some.injEq] at hhead
        obtain rfl := hhead
        have hdelim : netlocDelim c = true := by
          have := dropWhile_head_false hdp
          simpa using this
        have hcmem : c ∈ c :: t := List.mem_cons_self _ _
        have : (c = '/' ∨ c = '?') ∨ c = '#' := by
          unfold netlocDelim at hdelim
          simpa using hdelim
        rcases this with (rfl | rfl) | rfl
        · exact ⟨t, rfl⟩
        · exact absurd hcmem hnoQ
        · exact absurd hcmem hnoHash

theorem urlparse_inv {raw : List Char} {p : ParseResult} (h : urlparse raw = some p) :
    (∀ x ∈ p.netloc, netlocDelim x = false) ∧
    bracketBad p.netloc = false ∧
    cleanL p.netloc ∧ cleanL p.path ∧ cleanL p.params ∧ cleanL p.query ∧ cleanL p.fragment ∧
    '#' ∉ p.path ∧ '?' ∉ p.path ∧ '#' ∉ p.params ∧ '?' ∉ p.params ∧ '/' ∉ p.params ∧
    '#' ∉ p.query ∧
    (p.netloc ≠ [] → p.path = [] ∨ ∃ t, p.path = '/' :: t) ∧
    lastSegNoSemi p.path := by
  unfold urlparse at h
  simp only [] at h
  by_cases hbr : bracketBad (splitNetloc (splitScheme (sanitizeUrl raw)).2).1 = true
  · rw [if_pos hbr] at h
    exact absurd h (by simp)
  · rw [if_neg hbr] at h
    obtain rfl := (Option.some.inj h).symm
    dsimp only
    have hcleanU : cleanL (sanitizeUrl raw) := sanitizeUrl_clean raw
    have hcleanS2 : cleanL (splitScheme (sanitizeUrl raw)).2 :=
      cleanL_of_subset (splitScheme_snd_subset _) hcleanU
    have hcleanNL : cleanL (splitNetloc (splitScheme (sanitizeUrl raw)).2).1 :=
      cleanL_of_subset (splitNetloc_fst_subset _) hcleanS2
    have hcleanREST : cleanL (splitNetloc (splitScheme (sanitizeUrl raw)).2).2 :=
      cleanL_of_subset (splitNetloc_snd_subset _) hcleanS2
    have hcleanF1 : cleanL (splitFragment (splitNetloc (splitScheme (sanitizeUrl raw)).2).2).1 :=
      cleanL_of_subset (splitFragment_fst_subset _) hcleanREST
    have hcleanF2 : cleanL (splitFragment (splitNetloc (splitScheme (sanitizeUrl raw)).2).2).2 :=
      cleanL_of_subset (splitFragment_snd_subset _) hcleanREST
    have hcleanQ1 : cleanL (splitQuery
        (splitFragment (splitNetloc (splitScheme (sanitizeUrl raw)).2).2).1).1 :=
      cleanL_of_subset (splitQuery_fst_subset _) hcleanF1
    have hcleanQ2 : cleanL (splitQuery
        (splitFragment (splitNetloc (splitScheme (sanitizeUrl raw)).2).2).1).2 :=
      cleanL_of_subset (splitQuery_snd_subset _) hcleanF1
    have hnoHashF1 : '#' ∉ (splitFragment (splitNetloc (splitScheme (sanitizeUrl raw)).2).2).1 := by
      rcases splitFragment_parts (splitNetloc (splitScheme (sanitizeUrl raw)).2).2 with
        ⟨h1, _, h3⟩ | ⟨_, h2⟩
      · rw [h1]; exact h3
      · exact h2
    have hnoHashQ1 : '#' ∉ (splitQuery
        (splitFragment (splitNetloc (splitScheme (sanitizeUrl raw)).2).2).1).1 :=
      fun hm => hnoHashF1 (splitQuery_fst_subset _ _ hm)
    have hnoHashQ2 : '#' ∉ (splitQuery
        (splitFragment (splitNetloc (splitScheme (sanitizeUrl raw)).2).2).1).2 :=
      fun hm => hnoHashF1 (splitQuery_snd_subset _ _ hm)
    have hnoQQ1 : '?' ∉ (splitQuery
        (splitFragment (splitNetloc (splitScheme (sanitizeUrl raw)).2).2).1).1 := by
      rcases splitQuery_parts
          (splitFragment (splitNetloc (splitScheme (sanitizeUrl raw)).2).2).1 with
        ⟨h1, _, h3⟩ | ⟨_, h2⟩
      · rw [h1]; exact h3
      · exact h2
    set Q1 := (splitQuery
      (splitFragment (splitNetloc (splitScheme (sanitizeUrl raw)).2).2).1).1 with hQ1
    by_cases hsem : Q1.contains ';' = true
    · rw [if_pos hsem]
      rcases splitParams_spec Q1 with ⟨hs1, hs2, hs3, hs4, hs5⟩
      refine ⟨splitNetloc_fst_nodelim _, by simpa using hbr, hcleanNL,
        cleanL_of_subset hs1 hcleanQ1, cleanL_of_subset hs2 hcleanQ1, hcleanQ2, hcleanF2,
        fun hm => hnoHashQ1 (hs1 _ hm), fun hm => hnoQQ1 (hs1 _ hm),
        fun hm => hnoHashQ1 (hs2 _ hm), fun hm => hnoQQ1 (hs2 _ hm), hs3,
        hnoHashQ2, ?_, hs5⟩
      intro hnl
      by_cases hpe : (splitParams Q1).1 = []
      · exact Or.inl hpe
      · right
        obtain ⟨x, hx⟩ := List.exists_mem_of_ne_nil _ hpe
        have hQ1ne : Q1 ≠ [] := List.ne_nil_of_mem (hs1 x hx)
        have hF1ne :
            (splitFragment (splitNetloc (splitScheme (sanitizeUrl raw)).2).2).1 ≠ [] :=
          List.ne_nil_of_mem (splitQuery_fst_subset _ _ (hs1 x hx))
        have hchain : (splitParams Q1).1.head? =
            (splitNetloc (splitScheme (sanitizeUrl raw)).2).2.head? := by
          rw [hs4 hpe]
          exact (splitQuery_head? _ hQ1ne).trans (splitFragment_head? _ hF1ne)
        exact path_head_slash hnl hpe hchain (fun hm => hnoHashQ1 (hs1 _ hm))
          (fun hm => hnoQQ1 (hs1 _ hm))
    · rw [if_neg hsem]
      dsimp only
      have hnosemi : ';' ∉ Q1 := by
        intro hm
        exact hsem (contains_of_mem hm)
      refine ⟨splitNetloc_fst_nodelim _, by simpa using hbr, hcleanNL,
        hcleanQ1, cleanL_nil, hcleanQ2, hcleanF2,
        hnoHashQ1, hnoQQ1, by simp, by simp, by simp,
        hnoHashQ2, ?_, lastSegNoSemi_of_not_mem hnosemi⟩
      intro hnl
      by_cases hpe : Q1 = []
      · exact Or.inl hpe
      · right
        obtain ⟨x, hx⟩ := List.exists_mem_of_ne_nil _ hpe
        have hF1ne :
            (splitFragment (splitNetloc (splitScheme (sanitizeUrl raw)).2).2).1 ≠ [] :=
          List.ne_nil_of_mem (splitQuery_fst_subset _ _ hx)
        have hchain : Q1.head? =
            (splitNetloc (splitScheme (sanitizeUrl raw)).2).2.head? :=
          (splitQuery_head? _ hpe).trans (splitFragment_head? _ hF1ne)
        exact path_head_slash hnl hpe hchain hnoHashQ1 hnoQQ1

theorem urlunparse_shape (sc nl pth prm q fr : List Char)
    (hsc : sc ≠ []) (hnl : nl ≠ [])
    (hpath : pth = [] ∨ ∃ t, pth = '/' :: t) :
    ∃ tal, urlunparse ⟨sc, nl, pth ++ dotRss, prm, q, fr⟩ =
        sc ++ ':' :: '/' :: '/' :: (nl ++ ('/' :: tal) ++
          (if q = [] then [] else '?' :: q) ++ (if fr = [] then [] else '#' :: fr)) ∧
      '/' :: tal = (if pth = [] then ['/'] else pth) ++ dotRss ++
        (if prm = [] then [] else ';' :: prm) := by
  have hnl' : nl.isEmpty = false := by
    cases nl with
    | nil => exact absurd rfl hnl
    | cons a b => rfl
  have hsc' : sc.isEmpty = false := by
    cases sc with
    | nil => exact absurd rfl hsc
    | cons a b => rfl
  rcases hpath with rfl | ⟨t, rfl⟩
  · refine ⟨dotRss ++ (if prm = [] then [] else ';' :: prm), ?_, by simp⟩
    by_cases hprm : prm = [] <;> by_cases hq : q = [] <;> by_cases hfr : fr = [] <;>
      simp [urlunparse, hnl', hsc', hprm, hq, hfr, dotRss, List.append_assoc,
        List.isEmpty_iff]
  · refine ⟨t ++ dotRss ++ (if prm = [] then [] else ';' :: prm), ?_, by simp⟩
    by_cases hprm : prm = [] <;> by_cases hq : q = [] <;> by_cases hfr : fr = [] <;>
      simp [urlunparse, hnl', hsc', hprm, hq, hfr, dotRss, List.append_assoc,
        List.isEmpty_iff]

theorem urlparse_canonical (sc nl tal q fr : List Char)
    (hsc : sc = httpChars ∨ sc = httpsChars)
    (hnl : ∀ x ∈ nl, netlocDelim x = false)
    (hbr : bracketBad nl = false)
    (hcnl : cleanL nl) (hctal : cleanL tal) (hcq : cleanL q) (hcfr : cleanL fr)
    (htalHash : '#' ∉ tal) (hqHash : '#' ∉ q) (htalQ : '?' ∉ tal) :
    urlparse (sc ++ ':' :: '/' :: '/' :: (nl ++ ('/' :: tal) ++
        (if q = [] then [] else '?' :: q) ++ (if fr = [] then [] else '#' :: fr))) =
      some ⟨sc, nl,
        (if ('/' :: tal).contains ';' then splitParams ('/' :: tal) else ('/' :: tal, [])).1,
        (if ('/' :: tal).contains ';' then splitParams ('/' :: tal) else ('/' :: tal, [])).2,
        q, fr⟩ := by
  have hcq' : cleanL (if q = [] then [] else '?' :: q) := by
    by_cases hq : q = []
    · rw [if_pos hq]; exact cleanL_nil
    · rw [if_neg hq]; exact cleanL_cons (by decide) hcq
  have hcfr' : cleanL (if fr = [] then [] else '#' :: fr) := by
    by_cases hfr : fr = []
    · rw [if_pos hfr]; exact cleanL_nil
    · rw [if_neg hfr]; exact cleanL_cons (by decide) hcfr
  have hcrest : cleanL ('/' :: '/' :: (nl ++ ('/' :: tal) ++
      (if q = [] then [] else '?' :: q) ++ (if fr = [] then [] else '#' :: fr))) := by
    refine cleanL_cons (by decide) (cleanL_cons (by decide) ?_)
    exact cleanL_append (cleanL_append (cleanL_append hcnl
      (cleanL_cons (by decide) hctal)) hcq') hcfr'
  have hsan : sanitizeUrl (sc ++ ':' :: '/' :: '/' :: (nl ++ ('/' :: tal) ++
      (if q = [] then [] else '?' :: q) ++ (if fr = [] then [] else '#' :: fr))) =
      sc ++ ':' :: '/' :: '/' :: (nl ++ ('/' :: tal) ++
      (if q = [] then [] else '?' :: q) ++ (if fr = [] then [] else '#' :: fr)) := by
    have hcA : cleanL (sc ++ ':' :: '/' :: '/' :: (nl ++ ('/' :: tal) ++
        (if q = [] then [] else '?' :: q) ++ (if fr = [] then [] else '#' :: fr))) := by
      refine cleanL_append ?_ (cleanL_cons (by decide) hcrest)
      rcases hsc with rfl | rfl
      · unfold cleanL; decide
      · unfold cleanL; decide
    rcases hsc with rfl | rfl
    · exact sanitizeUrl_eq_self (c := 'h') (by decide) hcA
    · exact sanitizeUrl_eq_self (c := 'h') (by decide) hcA
  have hq' : '#' ∉ ('/' :: tal) ++ (if q = [] then [] else '?' :: q) := by
    intro hm
    rcases List.mem_append.mp hm with h' | h'
    · rcases List.mem_cons.mp h' with h'' | h''
      · exact absurd h''.symm (by decide)
      · exact htalHash h''
    · by_cases hqq : q = []
      · rw [if_pos hqq] at h'; simp at h'
      · rw [if_neg hqq] at h'
        rcases List.mem_cons.mp h' with h'' | h''
        · exact absurd h''.symm (by decide)
        · exact hqHash h''
  have hnq : '?' ∉ ('/' :: tal) := by
    intro hm
    rcases List.mem_cons.mp hm with h'' | h''
    · exact absurd h''.symm (by decide)
    · exact htalQ h''
  have hassoc : nl ++ ('/' :: tal) ++ (if q = [] then [] else '?' :: q) ++
      (if fr = [] then [] else '#' :: fr) =
      nl ++ '/' :: (tal ++ (if q = [] then [] else '?' :: q) ++
        (if fr = [] then [] else '#' :: fr)) := by
    simp [List.append_assoc]
  have hassoc2 : '/' :: (tal ++ (if q = [] then [] else '?' :: q) ++
      (if fr = [] then [] else '#' :: fr)) =
      (('/' :: tal) ++ (if q = [] then [] else '?' :: q)) ++
        (if fr = [] then [] else '#' :: fr) := by
    simp [List.append_assoc]
  unfold urlparse
  dsimp only
  rw [hsan]
  rcases hsc with rfl | rfl
  · rw [splitScheme_http]
    dsimp only
    rw [hassoc, splitNetloc_cons hnl (by decide)]
    dsimp only
    rw [if_neg (by simp [hbr])]
    rw [hassoc2, splitFragment_append _ _ hq']
    dsimp only
    rw [splitQuery_append _ _ hnq]
  · rw [splitScheme_https]
    dsimp only
    rw [hassoc, splitNetloc_cons hnl (by decide)]
    dsimp only
    rw [if_neg (by simp [hbr])]
    rw [hassoc2, splitFragment_append _ _ hq']
    dsimp only
    rw [splitQuery_append _ _ hnq]

theorem splitParams_ends_rss {pth prm tal : List Char}
    (hpath : pth = [] ∨ ∃ t, pth = '/' :: t)
    (htal : '/' :: tal = (if pth = [] then ['/'] else pth) ++ dotRss ++
      (if prm = [] then [] else ';' :: prm))
    (hseg : lastSegNoSemi pth)
    (hprm : '/' ∉ prm) :
    listEnds dotRss
      ((if ('/' :: tal).contains ';' then splitParams ('/' :: tal) else ('/' :: tal, [])).1)
      = true := by
  have hp2head : ∃ t2, (if pth = [] then ['/'] else pth) = '/' :: t2 := by
    rcases hpath with rfl | ⟨t, rfl⟩
    · exact ⟨[], by simp⟩
    · exact ⟨t, by simp⟩
  have hp2seg : lastSegNoSemi (if pth = [] then ['/'] else pth) := by
    rcases hpath with rfl | ⟨t, ht⟩
    · rw [if_pos rfl]
      unfold lastSegNoSemi
      rw [show ('/' : Char) :: [] = [] ++ '/' :: ([] : List Char) from rfl,
        splitOnLast_append (by simp)]
      simp
    · rw [if_neg (by simp [ht])]
      exact hseg
  obtain ⟨t2, ht2⟩ := hp2head
  have hp2mem : '/' ∈ (if pth = [] then ['/'] else pth) := by
    rw [ht2]; exact List.mem_cons_self _ _
  obtain ⟨bef, seg, hsl, hdecomp, hni⟩ := splitOnLast_mem hp2mem
  have hsegns : ';' ∉ seg := by
    have h2 := hp2seg
    unfold lastSegNoSemi at h2
    rw [hsl] at h2
    exact h2
  by_cases hprmE : prm = []
  · rw [if_pos hprmE, List.append_nil] at htal
    by_cases hcsemi : ('/' :: tal).contains ';' = true
    · rw [if_pos hcsemi]
      unfold splitParams
      rw [if_pos (contains_of_mem (List.mem_cons_self _ _))]
      have hsl2 : splitOnLast '/' ('/' :: tal) = (bef, some (seg ++ dotRss)) := by
        rw [htal]
        exact splitOnLast_append_left dotRss (by decide) hsl
      rw [hsl2]
      dsimp only
      rw [splitOnFirst_not_mem (by
        intro hm
        rcases List.mem_append.mp hm with h' | h'
        · exact hsegns h'
        · revert h'; decide)]
      dsimp only
      rw [htal]
      exact listEnds_append _ _
    · rw [if_neg hcsemi]
      dsimp only
      rw [htal]
      exact listEnds_append _ _
  · rw [if_neg hprmE] at htal
    have hcsemi : ('/' :: tal).contains ';' = true := by
      apply contains_of_mem
      rw [htal]
      exact List.mem_append.mpr (Or.inr (List.mem_cons_self _ _))
    rw [if_pos hcsemi]
    unfold splitParams
    rw [if_pos (contains_of_mem (List.mem_cons_self _ _))]
    have hsl2 : splitOnLast '/' ('/' :: tal) =
        (bef, some (seg ++ (dotRss ++ ';' :: prm))) := by
      rw [htal, List.append_assoc]
      exact splitOnLast_append_left _ (by
        intro hm
        rcases List.mem_append.mp hm with h' | h'
        · revert h'; decide
        · rcases List.mem_cons.mp h' with h'' | h''
          · exact absurd h''.symm (by decide)
          · exact hprm h'') hsl
    rw [hsl2]
    dsimp only
    have hsf : splitOnFirst ';' (seg ++ (dotRss ++ ';' :: prm)) =
        (seg ++ dotRss, some prm) := by
      rw [show seg ++ (dotRss ++ ';' :: prm) = (seg ++ dotRss) ++ ';' :: prm by
        simp [List.append_assoc]]
      exact splitOnFirst_append (by
        intro hm
        rcases List.mem_append.mp hm with h' | h'
        · exact hsegns h'
        · revert h'; decide) prm
    rw [hsf]
    dsimp only
    rw [show bef ++ '/' :: (seg ++ dotRss) = (bef ++ '/' :: seg) ++ dotRss by
      simp [List.append_assoc]]
    exact listEnds_append _ _

theorem hostnameOf_ne_nil {nl h : List Char} (hh : hostnameOf nl = some h) : nl ≠ [] := by
  intro hnl
  subst hnl
  rw [show hostnameOf [] = none from rfl] at hh
  exact Option.noConfusion hh

theorem normalizeChars_not_reddit {e : List Char} (h : listStarts ['r', '/'] e = false) :
    normalizeChars e = urlBranch e := by
  unfold normalizeChars
  simp [h]

theorem urlparse_netloc_shape (sc nl dirty : List Char)
    (hsc : sc = httpChars ∨ sc = httpsChars)
    (hnl : ∀ x ∈ nl, netlocDelim x = false) (hcnl : cleanL nl)
    (hbr : bracketBad nl = false) :
    ∃ pp1 pp2 q2 f2, urlparse (sc ++ ':' :: '/' :: '/' :: (nl ++ '/' :: dirty)) =
      some ⟨sc, nl, pp1, pp2, q2, f2⟩ := by
  have hfil : sanitizeUrl (sc ++ ':' :: '/' :: '/' :: (nl ++ '/' :: dirty)) =
      sc ++ ':' :: '/' :: '/' :: (nl ++ '/' :: dirty.filter (fun c => ! unsafeUrlChar c)) := by
    have hsplit : sc ++ ':' :: '/' :: '/' :: (nl ++ '/' :: dirty) =
        (sc ++ [':', '/', '/']) ++ (nl ++ '/' :: dirty) := by
      simp [List.append_assoc]
    have hdw : List.dropWhile (fun c => decide (c.toNat ≤ 32))
        (sc ++ ':' :: '/' :: '/' :: (nl ++ '/' :: dirty)) =
        sc ++ ':' :: '/' :: '/' :: (nl ++ '/' :: dirty) := by
      rcases hsc with rfl | rfl
      · rw [show httpChars ++ ':' :: '/' :: '/' :: (nl ++ '/' :: dirty) =
          'h' :: ('t' :: 't' :: 'p' :: ':' :: '/' :: '/' :: (nl ++ '/' :: dirty)) from rfl]
        rw [List.dropWhile_cons, if_neg (by decide)]
      · rw [show httpsChars ++ ':' :: '/' :: '/' :: (nl ++ '/' :: dirty) =
          'h' :: ('t' :: 't' :: 'p' :: 's' :: ':' :: '/' :: '/' :: (nl ++ '/' :: dirty)) from rfl]
        rw [List.dropWhile_cons, if_neg (by decide)]
    have hfc : List.filter (fun c => ! unsafeUrlChar c) (sc ++ [':', '/', '/']) =
        sc ++ [':', '/', '/'] := by
      rcases hsc with rfl | rfl
      · decide
      · decide
    unfold sanitizeUrl
    rw [hdw, hsplit, List.filter_append, hfc, List.filter_append,
      List.filter_eq_self.mpr (fun x hx => by simpa using hcnl x hx),
      List.filter_cons_of_pos (by decide)]
    simp [List.append_assoc]
  unfold urlparse
  dsimp only
  rw [hfil]
  rcases hsc with rfl | rfl
  · rw [splitScheme_http]
    dsimp only
    rw [show nl ++ '/' :: dirty.filter (fun c => ! unsafeUrlChar c) =
      nl ++ ('/' :: dirty.filter (fun c => ! unsafeUrlChar c)) from rfl]
    rw [splitNetloc_cons hnl (by decide)]
    dsimp only
    rw [if_neg (by simp [hbr])]
    exact ⟨_, _, _, _, rfl⟩
  · rw [splitScheme_https]
    dsimp only
    rw [splitNetloc_cons hnl (by decide)]
    dsimp only
    rw [if_neg (by simp [hbr])]
    exact ⟨_, _, _, _, rfl⟩

theorem normalizeChars_reddit_fixed (sub : List Char) :
    normalizeChars (redditPre ++ sub ++ ('/' :: dotRss)) =
      redditPre ++ sub ++ ('/' :: dotRss) := by
  have hpre : redditPre = httpsChars ++ ':' :: '/' :: '/' ::
      ("www.reddit.com".data ++ '/' :: "r/".data) := by decide
  have hshape : redditPre ++ sub ++ ('/' :: dotRss) =
      httpsChars ++ ':' :: '/' :: '/' :: ("www.reddit.com".data ++
        '/' :: ("r/".data ++ (sub ++ ('/' :: dotRss)))) := by
    rw [hpre]
    simp [List.append_assoc]
  have hstart : listStarts ['r', '/'] (redditPre ++ sub ++ ('/' :: dotRss)) = false := by
    rw [hshape]
    rfl
  rw [normalizeChars_not_reddit hstart]
  rw [hshape]
  obtain ⟨pp1, pp2, q2, f2, hp⟩ := urlparse_netloc_shape httpsChars "www.reddit.com".data
    ("r/".data ++ (sub ++ ('/' :: dotRss))) (Or.inr rfl) (by decide) (by
      unfold cleanL; decide) (by decide)
  unfold urlBranch
  rw [hp]
  dsimp only
  rw [if_pos (Or.inr rfl)]
  rw [show hostnameOf ("www.reddit.com".data) = some ("www.reddit.com".data) from by decide]
  dsimp only
  rw [if_neg (by decide)]

theorem urlBranch_cases (e : List Char) :
    urlBranch e = e ∨
      ∃ p : ParseResult, urlparse e = some p ∧
        (p.scheme = httpChars ∨ p.scheme = httpsChars) ∧
        (∃ host, hostnameOf p.netloc = some host ∧ listHasSub areNa host = true) ∧
        urlBranch e = urlunparse { p with path := p.path ++ dotRss } := by
  unfold urlBranch
  cases hp : urlparse e with
  | none => exact Or.inl rfl
  | some p =>
    dsimp only
    by_cases hsc : p.scheme = httpChars ∨ p.scheme = httpsChars
    · rw [if_pos hsc]
      cases hh : hostnameOf p.netloc with
      | none => exact Or.inl rfl
      | some host =>
        dsimp only
        by_cases hhs : listHasSub areNa host = true
        · rw [if_pos hhs]
          by_cases hend : (! listEnds dotRss p.path && ! listEnds slashRss p.path) = true
          · rw [if_pos hend]
            exact Or.inr ⟨p, rfl, hsc, ⟨host, hh, hhs⟩, rfl⟩
          · rw [if_neg hend]
            exact Or.inl rfl
        · rw [if_neg hhs]
          exact Or.inl rfl
    · rw [if_neg hsc]
      exact Or.inl rfl

theorem urlBranch_arena_fixed {e : List Char} {p : ParseResult}
    (hp : urlparse e = some p)
    (hsc : p.scheme = httpChars ∨ p.scheme = httpsChars)
    (hhost : ∃ host, hostnameOf p.netloc = some host ∧ listHasSub areNa host = true) :
    normalizeChars (urlunparse { p with path := p.path ++ dotRss }) =
      urlunparse { p with path := p.path ++ dotRss } := by
  obtain ⟨host, hh, hhs⟩ := hhost
  obtain ⟨hnd, hbr, hcnl, hcpth, hcprm, hcq, hcfr, hpH, hpQ, hprmH, hprmQ, hprmS,
    hqH, hhead, hseg⟩ := urlparse_inv hp
  obtain ⟨sc, nl, pth, prm, q, fr⟩ := p
  dsimp only at hnd hbr hcnl hcpth hcprm hcq hcfr hpH hpQ hprmH hprmQ hprmS hqH
  dsimp only at hhead hseg hsc hh ⊢
  have hnlne : nl ≠ [] := hostnameOf_ne_nil hh
  have hscne : sc ≠ [] := by
    rcases hsc with rfl | rfl
    · exact by decide
    · exact by decide
  obtain ⟨tal, hA, htal⟩ :=
    urlunparse_shape sc nl pth prm q fr hscne hnlne (hhead hnlne)
  have htalmem : ∀ x ∈ tal, x ∈ (if pth = [] then ['/'] else pth) ∨ x ∈ dotRss ∨
      x = ';' ∨ x ∈ prm := by
    intro x hx
    have hx2 : x ∈ '/' :: tal := List.mem_cons_of_mem _ hx
    rw [htal] at hx2
    rcases List.mem_append.mp hx2 with h' | h'
    · rcases List.mem_append.mp h' with h'' | h''
      · exact Or.inl h''
      · exact Or.inr (Or.inl h'')
    · by_cases hprmE : prm = []
      · rw [if_pos hprmE] at h'
        simp at h'
      · rw [if_neg hprmE] at h'
        rcases List.mem_cons.mp h' with h'' | h''
        · exact Or.inr (Or.inr (Or.inl h''))
        · exact Or.inr (Or.inr (Or.inr h''))
  have hpth2mem : ∀ x ∈ (if pth = [] then ['/'] else pth), x = '/' ∨ x ∈ pth := by
    intro x hx
    by_cases hpe : pth = []
    · rw [if_pos hpe] at hx
      rcases List.mem_cons.mp hx with h' | h'
      · exact Or.inl h'
      · simp at h'
    · rw [if_neg hpe] at hx
      exact Or.inr hx
  have hctal : cleanL tal := by
    intro x hx
    rcases htalmem x hx with h' | h' | h' | h'
    · rcases hpth2mem x h' with rfl | h''
      · decide
      · exact hcpth x h''
    · exact (show cleanL dotRss by unfold cleanL; decide) x h'
    · subst h'; decide
    · exact hcprm x h'
  have htalHash : '#' ∉ tal := by
    intro hx
    rcases htalmem '#' hx with h' | h' | h' | h'
    · rcases hpth2mem '#' h' with h'' | h''
      · exact absurd h'' (by decide)
      · exact hpH h''
    · revert h'; decide
    · exact absurd h' (by decide)
    · exact hprmH h'
  have htalQ : '?' ∉ tal := by
    intro hx
    rcases htalmem '?' hx with h' | h' | h' | h'
    · rcases hpth2mem '?' h' with h'' | h''
      · exact absurd h'' (by decide)
      · exact hpQ h''
    · revert h'; decide
    · exact absurd h' (by decide)
    · exact hprmQ h'
  rw [hA]
  have hred : listStarts ['r', '/'] (sc ++ ':' :: '/' :: '/' :: (nl ++ ('/' :: tal) ++
      (if q = [] then [] else '?' :: q) ++ (if fr = [] then [] else '#' :: fr))) = false := by
    rcases hsc with rfl | rfl
    · rfl
    · rfl
  rw [normalizeChars_not_reddit hred]
  unfold urlBranch
  rw [urlparse_canonical sc nl tal q fr hsc hnd hbr hcnl hctal hcq hcfr htalHash hqH htalQ]
  dsimp only
  rw [if_pos hsc, hh]
  dsimp only
  rw [if_pos hhs]
  have hend : listEnds dotRss
      ((if ('/' :: tal).contains ';' then splitParams ('/' :: tal)
        else ('/' :: tal, [])).1) = true :=
    splitParams_ends_rss (hhead hnlne) htal hseg hprmS
  rw [if_neg (fun h => by rw [hend] at h; simp at h)]

theorem normalizeChars_idem (e : List Char) :
    normalizeChars (normalizeChars e) = normalizeChars e := by
  by_cases hcond : (listStarts ['r', '/'] e && ! listHasSub [':', '/', '/'] e &&
      ! (stripChars (fun c => c == '/') (stripChars isPyWs (e.drop 2))).isEmpty) = true
  · have he : normalizeChars e =
        redditPre ++ stripChars (fun c => c == '/') (stripChars isPyWs (e.drop 2)) ++
          ('/' :: dotRss) := by
      unfold normalizeChars
      rw [if_pos hcond]
    rw [he]
    exact normalizeChars_reddit_fixed _
  · have he : normalizeChars e = urlBranch e := by
      unfold normalizeChars
      rw [if_neg hcond]
    rw [he]
    rcases urlBranch_cases e with hfix | ⟨p, hp, hsc, hhost, heq⟩
    · rw [hfix, he, hfix]
    · rw [heq]
      exact urlBranch_arena_fixed hp hsc hhost

/-- Claim C10: `normalize_feed_entry` is idempotent — a second application
    returns its input unchanged: the Reddit expansion produces an
    `https://www.reddit.com/...` URL the URL branch leaves alone, and the
    are.na rewrite produces a URL whose parsed path ends in `.rss`, which the
    endswith guard then accepts unchanged. -/
theorem claim_C10_normalize_idempotent (s : String) :
    normalize_feed_entry (normalize_feed_entry s) = normalize_feed_entry s := by
  unfold normalize_feed_entry
  exact congrArg String.mk (normalizeChars_idem s.data)

end Rss2Discord
